import Mathlib

/-!
Verification development for the webstruct repository (files
src/webstruct/wapiti.py and src/webstruct/feature_extraction.py):
a shallow embedding of the template compiler, the Wapiti feature
encoder, the HTML tokenizer and the feature extractor, with theorems
settling the specification's claims about them.
-/

set_option maxHeartbeats 1000000

namespace Webstruct

/-- Whitespace characters as matched by the regex class for whitespace (and
stripped by Python str.strip) over template text, modelled on the ASCII
range. -/
def isWsChar (c : Char) : Bool :=
  c == ' ' || c == '\t' || c == '\n' || c == '\r' || c == '\x0b' || c == '\x0c'

/-- Decimal digit, the regex digit class restricted to ASCII; also the
character test behind Python str.isdigit on the column group. -/
def isDigitChar (c : Char) : Bool := '0' ≤ c && c ≤ '9'

/-- Characters accepted by the xXtTmM alternative of WAPITI_MACRO_PATTERN's
macro group. -/
def isKindChar (c : Char) : Bool :=
  c == 'x' || c == 'X' || c == 't' || c == 'T' || c == 'm' || c == 'M'

/-- Characters allowed in the column group of WAPITI_MACRO_PATTERN:
anything but a closing bracket, a comma or whitespace. -/
def isColChar (c : Char) : Bool := !(c == ']' || c == ',' || isWsChar c)

/-- A successful match of WAPITI_MACRO_PATTERN at the head of a character
list: the named groups (the kind character after the percent sign, the
offset, the column, the rest character) together with the whitespace runs
the pattern skips and the characters that follow the match. -/
structure MacroMatch where
  kind : Char
  ws1 : List Char
  offset : List Char
  ws2 : List Char
  ws3 : List Char
  column : List Char
  ws4 : List Char
  rest : Char
  remaining : List Char
  deriving DecidableEq, Repr

/-- Match WAPITI_MACRO_PATTERN at the start of the list: a percent sign, one
of xXtTmM, an opening bracket, optional whitespace, an optionally signed
nonempty digit run (the offset), optional whitespace, a comma, optional
whitespace, a nonempty column token of characters other than closing
bracket, comma and whitespace, optional whitespace, and a closing bracket
or a comma (the rest group). -/
def lexOffset (s : List Char) : Option (List Char × List Char × List Char) :=
  if (s.dropWhile isWsChar).head? = some '-' then
    if (s.dropWhile isWsChar).tail.takeWhile isDigitChar = [] then none
    else some (s.takeWhile isWsChar,
               '-' :: (s.dropWhile isWsChar).tail.takeWhile isDigitChar,
               (s.dropWhile isWsChar).tail.dropWhile isDigitChar)
  else
    if (s.dropWhile isWsChar).takeWhile isDigitChar = [] then none
    else some (s.takeWhile isWsChar,
               (s.dropWhile isWsChar).takeWhile isDigitChar,
               (s.dropWhile isWsChar).dropWhile isDigitChar)

def lexComma (s : List Char) : Option (List Char × List Char) :=
  if (s.dropWhile isWsChar).head? = some ',' then
    some (s.takeWhile isWsChar, (s.dropWhile isWsChar).tail)
  else none

def lexColumn (s : List Char) : Option (List Char × List Char × List Char) :=
  if (s.dropWhile isWsChar).takeWhile isColChar = [] then none
  else some (s.takeWhile isWsChar,
             (s.dropWhile isWsChar).takeWhile isColChar,
             (s.dropWhile isWsChar).dropWhile isColChar)

def lexRest (s : List Char) : Option (List Char × Char × List Char) :=
  match s.dropWhile isWsChar with
  | c :: s7 => if c = ']' ∨ c = ',' then some (s.takeWhile isWsChar, c, s7) else none
  | [] => none

def matchAfterBracket (k : Char) (s : List Char) : Option MacroMatch :=
  if isKindChar k then
    match lexOffset s with
    | none => none
    | some (ws1, off, r1) =>
      match lexComma r1 with
      | none => none
      | some (ws2, r2) =>
        match lexColumn r2 with
        | none => none
        | some (ws3, col, r3) =>
          match lexRest r3 with
          | none => none
          | some (ws4, rc, rem) => some ⟨k, ws1, off, ws2, ws3, col, ws4, rc, rem⟩
  else none

def matchMacro (l : List Char) : Option MacroMatch :=
  match l with
  | '%' :: k :: '[' :: s => matchAfterBracket k s
  | _ => none

/-- Decimal digit character for a value below ten. -/
def decimalDigit : Nat → Char
  | 0 => '0'
  | 1 => '1'
  | 2 => '2'
  | 3 => '3'
  | 4 => '4'
  | 5 => '5'
  | 6 => '6'
  | 7 => '7'
  | 8 => '8'
  | _ => '9'

/-- Digits of a natural number in decimal, fuel-driven; the fuel is always
sufficient when at least the number itself plus one. -/
def natDecimalAux : Nat → Nat → List Char
  | 0, _ => []
  | fuel + 1, n =>
    if n < 10 then [decimalDigit n]
    else natDecimalAux fuel (n / 10) ++ [decimalDigit (n % 10)]

/-- Decimal numeral of a natural number; models the text Python produces
when a column index found in the vocabulary is formatted into the
template. -/
def natDecimal (n : Nat) : List Char := natDecimalAux (n + 1) n

/-- One re.sub pass of WAPITI_MACRO_PATTERN over a single template line:
scan left to right and replace every match by the macro group, an opening
bracket, the offset, a comma, the resolved column and the rest group. A
column that is all digits is kept verbatim; a symbolic column is looked up
in the vocabulary, and an unknown one aborts the pass (Except.error models
the uncaught KeyError, the error the spec calls UnknownFeatureError). The
first argument is recursion fuel, in use always at least the length of the
line. -/
def subLineAux (vocab : String → Option Nat) : Nat → List Char → Except String (List Char)
  | 0, l => .ok l
  | _ + 1, [] => .ok []
  | fuel + 1, c :: cs =>
    match matchMacro (c :: cs) with
    | some m =>
      if m.column.all isDigitChar then
        Except.map (fun rs => '%' :: m.kind :: '[' :: (m.offset ++ ',' :: (m.column ++ m.rest :: rs)))
          (subLineAux vocab fuel m.remaining)
      else
        match vocab (String.mk m.column) with
        | some n =>
          Except.map (fun rs => '%' :: m.kind :: '[' :: (m.offset ++ ',' :: (natDecimal n ++ m.rest :: rs)))
            (subLineAux vocab fuel m.remaining)
        | none => .error (String.mk m.column)
    | none => Except.map (fun rs => c :: rs) (subLineAux vocab fuel cs)

/-- The column group of every match WAPITI_MACRO_PATTERN finds in one line,
in scan order (leftmost, non-overlapping), fuel-driven like subLineAux. -/
def macroColsAux : Nat → List Char → List (List Char)
  | 0, _ => []
  | _ + 1, [] => []
  | fuel + 1, c :: cs =>
    match matchMacro (c :: cs) with
    | some m => m.column :: macroColsAux fuel m.remaining
    | none => macroColsAux fuel cs

/-- The column tokens of all macros of one line. -/
def macroColumns (l : List Char) : List (List Char) := macroColsAux l.length l

/-- The same scan as subLineAux with the vocabulary never consulted: every
matched macro is re-emitted with its column verbatim, which only deletes
the whitespace the pattern allows inside a macro; text outside matches is
copied unchanged. -/
def normLineAux : Nat → List Char → List Char
  | 0, l => l
  | _ + 1, [] => []
  | fuel + 1, c :: cs =>
    match matchMacro (c :: cs) with
    | some m => '%' :: m.kind :: '[' :: (m.offset ++ ',' :: (m.column ++ m.rest :: normLineAux fuel m.remaining))
    | none => c :: normLineAux fuel cs

/-- Python str.splitlines restricted to the universal line terminators
(newline, carriage return, carriage return plus newline): a terminator ends
the current line, and a trailing terminator does not open a final empty
line. -/
def splitAux : List Char → List Char → List (List Char)
  | [], acc => if acc.isEmpty then [] else [acc.reverse]
  | '\r' :: '\n' :: t, acc => acc.reverse :: splitAux t []
  | '\n' :: t, acc => acc.reverse :: splitAux t []
  | '\r' :: t, acc => acc.reverse :: splitAux t []
  | c :: t, acc => splitAux t (c :: acc)

/-- The lines of a template, as Python template.splitlines(). -/
def splitLines (l : List Char) : List (List Char) := splitAux l []

/-- Code of webstruct.wapiti, line 344: a template line is a comment when
its first non-whitespace character is a hash sign. -/
def isCommentLine (l : List Char) : Bool := (l.dropWhile isWsChar).head? == some '#'

/-- Join a list of lines with single newline characters, as the final
backslash-n join of prepare_wapiti_template. -/
def joinNL : List (List Char) → List Char
  | [] => []
  | [l] => l
  | l :: ls => l ++ '\n' :: joinNL ls

/-- Process the split lines of a template: comment lines pass through
unchanged, every other line gets the macro substitution; the first unknown
symbolic column aborts the whole computation, as the uncaught KeyError
does. -/
def prepLines (vocab : String → Option Nat) : List (List Char) → Except String (List (List Char))
  | [] => .ok []
  | l :: rest =>
    match (if isCommentLine l then .ok l else subLineAux vocab l.length l) with
    | .error e => .error e
    | .ok s => Except.map (fun ss => s :: ss) (prepLines vocab rest)

/-- Code of webstruct.wapiti, lines 310 to 341 (prepare_wapiti_template):
split the template into lines, rewrite the column of every macro of every
non-comment line to its numeric column index using the vocabulary, and join
the lines with single newlines. -/
def prepare_wapiti_template (template : String) (vocab : String → Option Nat) : Except String String :=
  Except.map (fun ls => String.mk (joinNL ls)) (prepLines vocab (splitLines template.data))

/-- The whitespace-normalized form of a template: lines are split as the
compiler splits them, comment lines are kept verbatim, the macros of every
other line lose the whitespace the pattern allows, and the lines are joined
with single newlines. -/
def normTemplate (t : String) : String :=
  String.mk (joinNL ((splitLines t.data).map
    (fun l => if isCommentLine l then l else normLineAux l.length l)))

/-- Every macro column on every non-comment line of the template is already
a decimal integer. -/
abbrev templateColsNumeric (t : String) : Prop :=
  ∀ l ∈ splitLines t.data, isCommentLine l = false →
    ∀ col ∈ macroColumns l, col.all isDigitChar = true

/-- Whether the template text ends in a line terminator character. -/
abbrev endsWithTerm (t : String) : Prop :=
  t.data.getLast? = some '\n' ∨ t.data.getLast? = some '\r'

/-- Whether an Except carries a successful result (the Python computation
returned instead of raising). -/
def exceptOk {ε α : Type} : Except ε α → Bool
  | .ok _ => true
  | .error _ => false

/-- Vocabulary of the module doctest. -/
def doctestVocab : String → Option Nat :=
  fun s => if s = "token" then some 0 else if s = "tag" then some 1 else none

/-- Feature dictionary: an association list from feature name to value, the
shallow embedding of a Python dict in insertion order. -/
abbrev FDict (α : Type) := List (String × α)

/-- Modelled from the spec: webstruct.utils.get_combined_keys is not under
src/; per the spec it collects the feature names observed in the
dictionaries of one sequence, consumed only as a set of keys. -/
def get_combined_keys {α : Type} (dicts : List (FDict α)) : List String :=
  (dicts.map (fun d => d.map Prod.fst)).flatten

/-- Union of two Python sets, represented by membership in a list. -/
def pyUnion (a b : List String) : List String := a ++ b

/-- Difference of two Python sets, represented by membership in a list. -/
def pyDiff (a b : List String) : List String := a.filter (fun x => !b.contains x)

/-- Lexicographic comparison of character lists by code point, used only to
fix a canonical set enumeration order. -/
def strLeChars : List Char → List Char → Bool
  | [], _ => true
  | _ :: _, [] => false
  | a :: as, b :: bs =>
    if a.val < b.val then true
    else if b.val < a.val then false
    else strLeChars as bs

/-- Enumeration of a Python set of strings as tuple(keys) does: CPython's
set iteration order depends on element hashes and is unspecified; the model
fixes one admissible duplicate-free order (lexicographically sorted) to
make the enumeration deterministic. -/
def pySetList (s : List String) : List String :=
  (s.dedup).insertionSort (fun a b => strLeChars a.data b.data = true)

/-- State of webstruct.wapiti.WapitiFeatureEncoder: the declared
move-to-front names, the fitted name tuple and the fitted vocabulary dict,
both None before fitting (lines 209 to 212). -/
structure WapitiFeatureEncoder where
  move_to_front : List String
  feature_names_ : Option (List String)
  vocabulary_ : Option (List (String × Nat))
  deriving DecidableEq, Repr

/-- A fresh encoder: both fitted fields are None. -/
def WapitiFeatureEncoder.init (mtf : List String) : WapitiFeatureEncoder :=
  ⟨mtf, none, none⟩

/-- The pairs of Python enumerate started at a given index, swapped into
dictionary insertion order. -/
def enumFrom : Nat → List String → List (String × Nat)
  | _, [] => []
  | i, f :: rest => (f, i) :: enumFrom (i + 1) rest

/-- Python dict((f, i) for i, f in enumerate(names)). -/
def mkVocab (names : List String) : List (String × Nat) := enumFrom 0 names

/-- Lookup in the vocabulary dict: on a duplicated key the later binding
wins, as repeated dict assignment does. -/
def vlookup (d : List (String × Nat)) (k : String) : Option Nat :=
  d.foldl (fun acc p => if p.1 = k then some p.2 else acc) none

/-- Code of webstruct.wapiti, lines 221 to 230 (partial_fit): seed the key
set with the current feature names (or the empty set), fold every sequence
in by set union of its combined keys followed by removal of the
move-to-front names, then store the new name tuple (move-to-front names
first, then the enumerated key set) and rebuild the vocabulary dict. Note
the removal happens inside the loop only, so a call with an empty sequence
list never subtracts the move-to-front names from the seeded keys. -/
def WapitiFeatureEncoder.partial_fit {α : Type} (e : WapitiFeatureEncoder)
    (X : List (List (FDict α))) : WapitiFeatureEncoder :=
  let keys0 : List String := e.feature_names_.getD []
  let keys := X.foldl
    (fun ks doc => pyDiff (pyUnion ks (get_combined_keys doc)) e.move_to_front) keys0
  let names := e.move_to_front ++ pySetList keys
  { e with feature_names_ := some names, vocabulary_ := some (mkVocab names) }

/-- Code of webstruct.wapiti, lines 214 to 219 (fit delegates to
partial_fit). -/
def WapitiFeatureEncoder.fit {α : Type} (e : WapitiFeatureEncoder)
    (X : List (List (FDict α))) : WapitiFeatureEncoder :=
  e.partial_fit X

/-- Code of webstruct.wapiti, lines 295 to 296 (reset): only
feature_names_ is set back to None; vocabulary_ keeps whatever value the
last fit stored. -/
def WapitiFeatureEncoder.reset (e : WapitiFeatureEncoder) : WapitiFeatureEncoder :=
  { e with feature_names_ := none }

/-- The vocabulary as a lookup function; with no fitted vocabulary every
lookup fails (in Python a subscript of None raises at once). -/
def vocabFun : Option (List (String × Nat)) → String → Option Nat
  | some d, k => vlookup d k
  | none, _ => none

/-- Code of webstruct.wapiti, lines 246 to 265 (prepare_template): delegate
to prepare_wapiti_template with the stored vocabulary_, whatever it is. -/
def WapitiFeatureEncoder.prepare_template (e : WapitiFeatureEncoder)
    (template : String) : Except String String :=
  prepare_wapiti_template template (vocabFun e.vocabulary_)

/-- All feature names observed anywhere in a list of partial_fit batches. -/
def allObservedKeys {α : Type} (batches : List (List (List (FDict α)))) : List String :=
  (batches.map (fun X => (X.map get_combined_keys).flatten)).flatten

/-- Whether a feature dictionary has a binding for the key. -/
def hasKey {α : Type} (d : FDict α) (k : String) : Bool := d.any (fun kv => kv.1 == k)

/-- Python dict.update: an existing key is overwritten in place keeping its
position, a new key is appended in iteration order. -/
def dictUpdate {α : Type} (a b : FDict α) : FDict α :=
  b.foldl (fun acc kv =>
    if hasKey acc kv.1 then
      acc.map (fun kv2 => if kv2.1 = kv.1 then (kv2.1, kv.2) else kv2)
    else acc ++ [kv]) a

/-- Modelled from the spec: webstruct.features.CombinedFeatures is not
under src/; per the spec the token-level feature functions are combined by
taking the union of their output mappings for one token, later functions
overwriting earlier keys at the same name. -/
def combinedFeatures {τ α : Type} (fs : List (τ → FDict α)) (tok : τ) : FDict α :=
  fs.foldl (fun acc f => dictUpdate acc (f tok)) []

/-- A global feature function: invoked once per document on the ordered
list of (token, feature dictionary) pairs, producing the rewritten
dictionaries. In Python it mutates the dictionaries of that list in place,
so by construction it yields one dictionary per pair; that in-place
contract is the length hypothesis of the claims that quantify over it. -/
abbrev GlobalFeature (τ α : Type) := List (τ × FDict α) → List (FDict α)

/-- Applying one global feature function: tokens keep their positions and
each dictionary is replaced by the function's rewrite. -/
def applyGlobal {τ α : Type} (g : GlobalFeature τ α) (td : List (τ × FDict α)) :
    List (τ × FDict α) :=
  (td.map Prod.fst).zip (g td)

/-- Code of webstruct.feature_extraction, lines 213 to 221
(transform_single): pair each token with its combined token-feature
dictionary, run every global feature function over the whole document in
order, then strip every private (underscore-prefixed) key from every
dictionary. -/
def transform_single {τ α : Type} (token_features : List (τ → FDict α))
    (global_features : List (GlobalFeature τ α)) (html_tokens : List τ) :
    List (FDict α) :=
  let token_data := html_tokens.map (fun tok => (tok, combinedFeatures token_features tok))
  let final := global_features.foldl (fun td g => applyGlobal g td) token_data
  final.map (fun p => p.2.filter (fun kv => !kv.1.startsWith "_"))

/-- Code of lines 210 to 211 (transform): per-document extraction with no
pruning. -/
def transform {τ α : Type} (token_features : List (τ → FDict α))
    (global_features : List (GlobalFeature τ α)) (lists : List (List τ)) :
    List (List (FDict α)) :=
  lists.map (transform_single token_features global_features)

/-- Code of lines 234 to 239 (_document_frequency): how many documents
contain the (name, value) pair at least once — each document counts at
most once however many of its dictionaries carry the pair. -/
def document_frequency {α : Type} [DecidableEq α] (X : List (List (FDict α)))
    (p : String × α) : Nat :=
  X.countP (fun doc => decide (p ∈ doc.flatten))

/-- Code of lines 223 to 232 (_pruned): an absent threshold or one at most
1 returns the input unchanged; otherwise every dictionary keeps exactly
the pairs whose document frequency reaches the threshold. -/
def pruned {α : Type} [DecidableEq α] (X : List (List (FDict α)))
    (low : Option Int) : List (List (FDict α)) :=
  match low with
  | none => X
  | some lo =>
    if lo ≤ 1 then X
    else X.map (fun doc => doc.map (fun fd =>
      fd.filter (fun kv => decide (lo ≤ (document_frequency X kv : Int)))))

/-- Code of lines 206 to 208 (fit_transform): extract every document, then
prune by the configured min_df threshold. -/
def fit_transform {τ α : Type} [DecidableEq α] (token_features : List (τ → FDict α))
    (global_features : List (GlobalFeature τ α)) (min_df : Option Int)
    (lists : List (List τ)) : List (List (FDict α)) :=
  pruned (lists.map (transform_single token_features global_features)) min_df

/-- An lxml element tree: tag name, optional head text, child elements in
document order, optional tail text. -/
inductive HTree where
  | node (tag : String) (text : Option String) (children : List HTree) (tail : Option String)

/-- Code of webstruct.feature_extraction, lines 12 to 38 (HtmlToken): a
token's index into the shared token list of its text segment, that list,
the owning element and the head-versus-tail flag. -/
structure HtmlTokenM where
  index : Nat
  tokens : List String
  elem : HTree
  is_tail : Bool

/-- Modelled from the spec: the IOB sequence encoder
(webstruct.sequence_encoding, not under src/) is consumed as a black box:
a state after reset, encode_split feeding a token stream through the
running encoder and returning the real tokens paired with tags, and the
token processor's classify giving a (kind, value) pair whose kind
distinguishes entity-start markers, entity-end markers and plain
tokens. -/
structure SeqEncoder (σ : Type) where
  init : σ
  encode_split : σ → List String → σ × List String × List String
  classify : String → String × String

/-- Configuration of webstruct.feature_extraction.HtmlTokenizer: the
optional tagset restriction, the raw text tokenizer, the sequence encoder,
and the tag-normalization preprocessing (kill_html_tags and
replace_html_tags come from webstruct.utils, not under src/, so the
composite transformation _prepare_tree applies to the private copy is an
abstract tree function). -/
structure HtmlTokenizerM (σ : Type) where
  tagset : Option (List String)
  text_tokenize_func : String → List String
  encoder : SeqEncoder σ
  prep : HTree → HTree

/-- Code of lines 130 to 139 (_limit_tags): with no tagset the token
stream passes through unfiltered; with one, exactly those tokens whose
classification is an entity-start or entity-end marker with a value
outside the tagset are dropped. -/
def limit_tags {σ : Type} (tz : HtmlTokenizerM σ) (input_tokens : List String) :
    List String :=
  match tz.tagset with
  | none => input_tokens
  | some ts =>
    input_tokens.filter (fun tok =>
      !(decide (((tz.encoder.classify tok).1 = "start" ∨ (tz.encoder.classify tok).1 = "end")
        ∧ (tz.encoder.classify tok).2 ∉ ts)))

/-- Code of lines 125 to 128 (_tokenize_and_split): tokenize the raw text
(or the empty string), filter by the tagset, and feed the sequence
encoder. -/
def tokenize_and_split {σ : Type} (tz : HtmlTokenizerM σ) (s : σ)
    (text : Option String) : σ × List String × List String :=
  tz.encoder.encode_split s (limit_tags tz (tz.text_tokenize_func (text.getD "")))

/-- One text segment's emission (lines 113 to 115 and 121 to 123): an
HtmlToken for every position of enumerate over the zipped tokens and tags,
each holding the whole segment token list, the owning element and the
head-versus-tail flag. -/
def segmentPairs {σ : Type} (tz : HtmlTokenizerM σ) (s : σ) (text : Option String)
    (elem : HTree) (is_tail : Bool) : σ × List (HtmlTokenM × String) :=
  let r := tokenize_and_split tz s text
  (r.1, (r.2.1.zip r.2.2).enum.map (fun p => (⟨p.1, r.2.1, elem, is_tail⟩, p.2.2)))

mutual

/-- Code of lines 112 to 123 (_process_tree): the element's head-text
tokens first, then each child's tokens recursively in child order, then
the element's tail-text tokens, threading the encoder state left to
right. -/
def process_tree {σ : Type} (tz : HtmlTokenizerM σ) (s : σ) :
    HTree → σ × List (HtmlTokenM × String)
  | .node tag text children tl =>
    let head := segmentPairs tz s text (.node tag text children tl) false
    let mid := process_children tz head.1 children
    let tailr := segmentPairs tz mid.1 tl (.node tag text children tl) true
    (tailr.1, head.2 ++ mid.2 ++ tailr.2)

/-- The children loop of _process_tree, in document order. -/
def process_children {σ : Type} (tz : HtmlTokenizerM σ) (s : σ) :
    List HTree → σ × List (HtmlTokenM × String)
  | [] => (s, [])
  | c :: rest =>
    let r := process_tree tz s c
    let rr := process_children tz r.1 rest
    (rr.1, r.2 ++ rr.2)

end

/-- The walk of an already-prepared tree from the reset encoder state,
unzipping the emitted pairs as zip(*pairs) does (an empty emission yields
two empty lists). -/
def tokenize_walk {σ : Type} (tz : HtmlTokenizerM σ) (tree : HTree) :
    List HtmlTokenM × List String :=
  let r := process_tree tz tz.encoder.init tree
  (r.2.map Prod.fst, r.2.map Prod.snd)

/-- Code of lines 80 to 95 (tokenize_single): deep-copy the input tree,
reset the sequence encoder, apply the preprocessing to the private copy,
walk the tree and unzip the emitted pairs. The pure value semantics makes
the deep copy invisible here; tokenize_single_st exposes it on an explicit
store. -/
def tokenize_single {σ : Type} (tz : HtmlTokenizerM σ) (tree : HTree) :
    List HtmlTokenM × List String :=
  tokenize_walk tz (tz.prep tree)

/-- A store of element trees: object identity modelled as an index, so
that in-place mutation is observable. -/
abbrev TreeStore := List HTree

/-- The default tree used for an out-of-range store read. -/
def emptyTree : HTree := .node "" none [] none

/-- tokenize_single over the store: deep-copying allocates a fresh slot
holding the caller's tree, _prepare_tree mutates that private slot only,
and the walk reads the prepared copy. -/
def tokenize_single_st {σ : Type} (tz : HtmlTokenizerM σ) (store : TreeStore)
    (ref : Nat) : TreeStore × (List HtmlTokenM × List String) :=
  let copyRef := store.length
  let store1 := store ++ [store.getD ref emptyTree]
  let store2 := store1.set copyRef (tz.prep (store1.getD copyRef emptyTree))
  (store2, tokenize_walk tz (store2.getD copyRef emptyTree))

mutual

/-- Whether a tree carries no text at all: every head and tail text of
every element is absent or empty. -/
def treeNoText : HTree → Bool
  | .node _ text children tl =>
    (text.getD "" == "") && forestNoText children && (tl.getD "" == "")

/-- treeNoText over a list of children. -/
def forestNoText : List HTree → Bool
  | [] => true
  | c :: rest => treeNoText c && forestNoText rest

end

example :
    prepare_wapiti_template "*:Pos-1 L=%x[-1, tag]\n*:Suf-2 X=%m[ 0,token,\".?.?$\"]" doctestVocab
      = .ok "*:Pos-1 L=%x[-1,1]\n*:Suf-2 X=%m[0,0,\".?.?$\"]" := by rfl

example :
    prepare_wapiti_template "*:Pos-1 L=%x[-1, tag]\n# *:Suf-2 X=%m[ 0,token,\".?.?$\"]" doctestVocab
      = .ok "*:Pos-1 L=%x[-1,1]\n# *:Suf-2 X=%m[ 0,token,\".?.?$\"]" := by rfl

example : prepare_wapiti_template "u:W=%x[0,word]" doctestVocab = .error "word" := by rfl

/-- A list whose optional head is a known element is that element consed on
its tail. -/
theorem head_cons_tail {α : Type} {l : List α} {a : α} (h : l.head? = some a) :
    l = a :: l.tail := by
  cases l with
  | nil => simp at h
  | cons x t => simp only [List.head?_cons, Option.some.injEq] at h; simp [h]

/-- Characters kept by takeWhile satisfy the predicate. -/
theorem ws_of_mem_takeWhile {s : List Char} :
    ∀ c ∈ s.takeWhile isWsChar, isWsChar c = true :=
  fun _ hc => List.mem_takeWhile_imp hc

/-- Specification of lexOffset: it splits its input into a whitespace run,
a nonempty optionally signed digit run, and the rest. -/
theorem lexOffset_some {s w off r : List Char} (h : lexOffset s = some (w, off, r)) :
    s = w ++ off ++ r ∧ (∀ c ∈ w, isWsChar c = true) ∧ off ≠ [] := by
  unfold lexOffset at h
  split at h
  case isTrue hm =>
    split at h
    case isTrue => exact absurd h (by simp)
    case isFalse hd =>
      obtain ⟨rfl, rfl, rfl⟩ : w = _ ∧ off = _ ∧ r = _ := by
        simpa using h.symm
      refine ⟨?_, ws_of_mem_takeWhile, by simp⟩
      conv_lhs => rw [← List.takeWhile_append_dropWhile (p := isWsChar) (l := s)]
      rw [head_cons_tail hm]
      simp [List.takeWhile_append_dropWhile]
  case isFalse hm =>
    split at h
    case isTrue => exact absurd h (by simp)
    case isFalse hd =>
      obtain ⟨rfl, rfl, rfl⟩ : w = _ ∧ off = _ ∧ r = _ := by
        simpa using h.symm
      refine ⟨?_, ws_of_mem_takeWhile, hd⟩
      conv_lhs => rw [← List.takeWhile_append_dropWhile (p := isWsChar) (l := s)]
      simp [List.takeWhile_append_dropWhile]

/-- Specification of lexComma: a whitespace run, then a comma, then the
rest. -/
theorem lexComma_some {s w r : List Char} (h : lexComma s = some (w, r)) :
    s = w ++ ',' :: r ∧ (∀ c ∈ w, isWsChar c = true) := by
  unfold lexComma at h
  split at h
  case isFalse => exact absurd h (by simp)
  case isTrue hm =>
    obtain ⟨rfl, rfl⟩ : w = _ ∧ r = _ := by simpa using h.symm
    refine ⟨?_, ws_of_mem_takeWhile⟩
    conv_lhs => rw [← List.takeWhile_append_dropWhile (p := isWsChar) (l := s),
      head_cons_tail hm]

/-- Specification of lexColumn: a whitespace run, then a nonempty run of
column characters, then the rest. -/
theorem lexColumn_some {s w col r : List Char} (h : lexColumn s = some (w, col, r)) :
    s = w ++ col ++ r ∧ (∀ c ∈ w, isWsChar c = true) ∧ col ≠ []
      ∧ (∀ c ∈ col, isColChar c = true) := by
  unfold lexColumn at h
  split at h
  case isTrue => exact absurd h (by simp)
  case isFalse hc =>
    obtain ⟨rfl, rfl, rfl⟩ : w = _ ∧ col = _ ∧ r = _ := by simpa using h.symm
    refine ⟨?_, ws_of_mem_takeWhile, hc, fun _ hc2 => List.mem_takeWhile_imp hc2⟩
    conv_lhs => rw [← List.takeWhile_append_dropWhile (p := isWsChar) (l := s)]
    simp [List.takeWhile_append_dropWhile]

/-- Specification of lexRest: a whitespace run, then a closing bracket or a
comma, then the rest. -/
theorem lexRest_some {s : List Char} {w : List Char} {c : Char} {r : List Char}
    (h : lexRest s = some (w, c, r)) :
    s = w ++ c :: r ∧ (∀ d ∈ w, isWsChar d = true) ∧ (c = ']' ∨ c = ',') := by
  unfold lexRest at h
  split at h
  case h_2 => exact absurd h (by simp)
  case h_1 _ c0 s7 hm =>
    split at h
    case isFalse => exact absurd h (by simp)
    case isTrue hrc =>
      obtain ⟨rfl, rfl, rfl⟩ : w = _ ∧ c = c0 ∧ r = s7 := by simpa using h.symm
      refine ⟨?_, ws_of_mem_takeWhile, hrc⟩
      conv_lhs => rw [← List.takeWhile_append_dropWhile (p := isWsChar) (l := s)]
      rw [hm]

/-- Decomposition of a successful macro match: the input is exactly the
matched header, the whitespace runs, the captured groups and the remaining
text; the whitespace runs are whitespace, the offset and column groups are
nonempty, and every column character is a column character. -/
theorem matchMacro_some {l : List Char} {m : MacroMatch} (h : matchMacro l = some m) :
    l = '%' :: m.kind :: '[' ::
      (m.ws1 ++ m.offset ++ m.ws2 ++ ',' :: (m.ws3 ++ m.column ++ m.ws4 ++ m.rest :: m.remaining))
    ∧ (∀ c ∈ m.ws1, isWsChar c = true) ∧ (∀ c ∈ m.ws2, isWsChar c = true)
    ∧ (∀ c ∈ m.ws3, isWsChar c = true) ∧ (∀ c ∈ m.ws4, isWsChar c = true)
    ∧ m.offset ≠ [] ∧ m.column ≠ [] ∧ (∀ c ∈ m.column, isColChar c = true)
    ∧ (m.rest = ']' ∨ m.rest = ',') := by
  unfold matchMacro at h
  split at h
  case h_2 => exact absurd h (by simp)
  case h_1 k s =>
    unfold matchAfterBracket at h
    split at h
    case isFalse => exact absurd h (by simp)
    case isTrue hk =>
      split at h
      case h_1 => exact absurd h (by simp)
      case h_2 _ ws1 off r1 hoff =>
        split at h
        case h_1 => exact absurd h (by simp)
        case h_2 _ ws2 r2 hcomma =>
          split at h
          case h_1 => exact absurd h (by simp)
          case h_2 _ ws3 col r3 hcol =>
            split at h
            case h_1 => exact absurd h (by simp)
            case h_2 _ ws4 rc rem hrest =>
              obtain rfl : m = ⟨k, ws1, off, ws2, ws3, col, ws4, rc, rem⟩ := by
                simpa using h.symm
              obtain ⟨hs, hw1, hoffne⟩ := lexOffset_some hoff
              obtain ⟨hr1, hw2⟩ := lexComma_some hcomma
              obtain ⟨hr2, hw3, hcolne, hcolchars⟩ := lexColumn_some hcol
              obtain ⟨hr3, hw4, hrc⟩ := lexRest_some hrest
              subst hs hr1 hr2 hr3
              exact ⟨by simp, hw1, hw2, hw3, hw4, hoffne, hcolne, hcolchars, hrc⟩

/-- The text after a macro match is strictly shorter than the matched
input. -/
theorem matchMacro_remaining_length {l : List Char} {m : MacroMatch}
    (h : matchMacro l = some m) : m.remaining.length < l.length := by
  obtain ⟨hl, -⟩ := matchMacro_some h
  rw [hl]
  simp [List.length_append]
  omega

/-- Mapping a function over an Except value keeps success and failure. -/
theorem exceptOk_map {ε α β : Type} (f : α → β) (e : Except ε α) :
    exceptOk (Except.map f e) = exceptOk e := by
  cases e <;> rfl

/-- The substitution pass over one line succeeds exactly when every macro
column it scans is numeric or present in the vocabulary. -/
theorem subLineAux_isOk_iff (vocab : String → Option Nat) :
    ∀ fuel : Nat, ∀ l : List Char, l.length ≤ fuel →
      (exceptOk (subLineAux vocab fuel l) = true ↔
        ∀ col ∈ macroColsAux fuel l,
          col.all isDigitChar = true ∨ (vocab (String.mk col)).isSome = true) := by
  intro fuel
  induction fuel with
  | zero =>
    intro l hl
    have : l = [] := List.eq_nil_of_length_eq_zero (Nat.le_zero.mp hl)
    subst this
    simp [subLineAux, macroColsAux, exceptOk]
  | succ fuel ih =>
    intro l hl
    match l with
    | [] => simp [subLineAux, macroColsAux, exceptOk]
    | c :: cs =>
      rw [subLineAux, macroColsAux]
      cases hm : matchMacro (c :: cs) with
      | none =>
        simp only
        have hcs : cs.length ≤ fuel := by
          simp [List.length_cons] at hl; omega
        rw [exceptOk_map]
        exact ih cs hcs
      | some m =>
        simp only
        have hrem : m.remaining.length ≤ fuel := by
          have := matchMacro_remaining_length hm
          simp [List.length_cons] at this hl
          omega
        by_cases hdig : m.column.all isDigitChar = true
        · rw [if_pos hdig, exceptOk_map, ih m.remaining hrem]
          simp only [List.forall_mem_cons]
          exact ⟨fun hA => ⟨Or.inl hdig, hA⟩, fun hPA => hPA.2⟩
        · rw [if_neg hdig]
          cases hv : vocab (String.mk m.column) with
          | none =>
            simp only [List.forall_mem_cons]
            constructor
            · intro hfalse
              exact absurd hfalse (by simp [exceptOk])
            · rintro ⟨hP, -⟩
              rcases hP with h1 | h2
              · exact absurd h1 hdig
              · rw [hv] at h2
                simp at h2
          | some n =>
            rw [exceptOk_map, ih m.remaining hrem]
            simp only [List.forall_mem_cons]
            exact ⟨fun hA => ⟨Or.inr (by simp [hv]), hA⟩, fun hPA => hPA.2⟩

/-- When every macro column of a line is numeric, the substitution pass
never consults the vocabulary and returns the whitespace-normalized line. -/
theorem subLineAux_eq_norm (vocab : String → Option Nat) :
    ∀ fuel : Nat, ∀ l : List Char,
      (∀ col ∈ macroColsAux fuel l, col.all isDigitChar = true) →
      subLineAux vocab fuel l = .ok (normLineAux fuel l) := by
  intro fuel
  induction fuel with
  | zero => intro l _; simp [subLineAux, normLineAux]
  | succ fuel ih =>
    intro l hall
    match l with
    | [] => simp [subLineAux, normLineAux]
    | c :: cs =>
      rw [subLineAux, normLineAux]
      rw [macroColsAux] at hall
      cases hm : matchMacro (c :: cs) with
      | none =>
        simp only
        rw [hm] at hall
        simp only at hall
        rw [ih cs hall]
        rfl
      | some m =>
        simp only
        rw [hm] at hall
        simp only [List.mem_cons] at hall
        have hdig : m.column.all isDigitChar = true := hall m.column (Or.inl rfl)
        rw [if_pos hdig]
        rw [ih m.remaining (fun col hc => hall col (Or.inr hc))]
        rfl

/-- The whitespace-normalizing scan only removes characters: its output is
a sublist of its input. -/
theorem normLineAux_sublist : ∀ fuel : Nat, ∀ l : List Char,
    (normLineAux fuel l).Sublist l := by
  intro fuel
  induction fuel with
  | zero => intro l; rw [normLineAux]
  | succ fuel ih =>
    intro l
    match l with
    | [] => rw [normLineAux]
    | c :: cs =>
      rw [normLineAux]
      cases hm : matchMacro (c :: cs) with
      | none => exact List.Sublist.cons₂ c (ih cs)
      | some m =>
        simp only
        obtain ⟨hl, -, -, -, -, -, -, -, -⟩ := matchMacro_some hm
        rw [hl]
        refine List.Sublist.cons₂ _ (List.Sublist.cons₂ _ (List.Sublist.cons₂ _ ?_))
        have h1 : m.offset.Sublist (m.ws1 ++ m.offset) := List.sublist_append_right _ _
        have h2 : List.Sublist [','] (m.ws2 ++ [',']) := List.sublist_append_right _ _
        have h3 : m.column.Sublist (m.ws3 ++ m.column) := List.sublist_append_right _ _
        have h4 : List.Sublist [m.rest] (m.ws4 ++ [m.rest]) := List.sublist_append_right _ _
        have h5 := ih m.remaining
        have hall := (((h1.append h2).append h3).append h4).append h5
        simpa using hall

/-- The whitespace-normalizing scan removes only whitespace: filtering the
whitespace out of its output and of its input gives the same list. -/
theorem normLineAux_filter : ∀ fuel : Nat, ∀ l : List Char,
    (normLineAux fuel l).filter (fun c => !isWsChar c) =
      l.filter (fun c => !isWsChar c) := by
  intro fuel
  induction fuel with
  | zero => intro l; rw [normLineAux]
  | succ fuel ih =>
    intro l
    match l with
    | [] => rw [normLineAux]
    | c :: cs =>
      rw [normLineAux]
      cases hm : matchMacro (c :: cs) with
      | none =>
        simp only [List.filter_cons, ih cs]
      | some m =>
        simp only
        obtain ⟨hl, hw1, hw2, hw3, hw4, -, -, -, -⟩ := matchMacro_some hm
        rw [hl]
        have hn1 : m.ws1.filter (fun c => !isWsChar c) = [] :=
          List.filter_eq_nil_iff.mpr (fun a ha => by simp [hw1 a ha])
        have hn2 : m.ws2.filter (fun c => !isWsChar c) = [] :=
          List.filter_eq_nil_iff.mpr (fun a ha => by simp [hw2 a ha])
        have hn3 : m.ws3.filter (fun c => !isWsChar c) = [] :=
          List.filter_eq_nil_iff.mpr (fun a ha => by simp [hw3 a ha])
        have hn4 : m.ws4.filter (fun c => !isWsChar c) = [] :=
          List.filter_eq_nil_iff.mpr (fun a ha => by simp [hw4 a ha])
        simp only [List.filter_cons, List.filter_append, hn1, hn2, hn3, hn4,
          ih m.remaining, List.nil_append, List.append_nil, List.append_assoc]

/-- Processing a list of template lines succeeds exactly when on every
non-comment line every macro column is numeric or in the vocabulary. -/
theorem prepLines_isOk_iff (vocab : String → Option Nat) :
    ∀ lines : List (List Char),
      (exceptOk (prepLines vocab lines) = true ↔
        ∀ l ∈ lines, isCommentLine l = false →
          ∀ col ∈ macroColumns l,
            col.all isDigitChar = true ∨ (vocab (String.mk col)).isSome = true) := by
  intro lines
  induction lines with
  | nil => simp [prepLines, exceptOk]
  | cons l rest ih =>
    rw [prepLines]
    by_cases hc : isCommentLine l = true
    · rw [if_pos hc]
      simp only [exceptOk_map]
      rw [ih]
      simp [List.forall_mem_cons, hc]
    · rw [if_neg hc]
      have hsub := subLineAux_isOk_iff vocab l.length l (Nat.le_refl _)
      cases hs : subLineAux vocab l.length l with
      | error e =>
        rw [hs] at hsub
        simp only [exceptOk] at hsub ⊢
        simp only [List.forall_mem_cons]
        constructor
        · intro hfalse; cases hfalse
        · rintro ⟨hP, -⟩
          have := hsub.mpr (by simpa [macroColumns, Bool.not_eq_true] using hP (by simpa using hc))
          cases this
      | ok s =>
        rw [hs] at hsub
        simp only [exceptOk] at hsub
        simp only [exceptOk_map]
        rw [ih]
        simp only [List.forall_mem_cons]
        constructor
        · intro hA
          refine ⟨fun _ => ?_, hA⟩
          simpa [macroColumns] using hsub.mp trivial
        · exact fun hPA => hPA.2

/-- When every macro column of every non-comment line is numeric, the line
processing succeeds and yields the whitespace-normalized lines for every
vocabulary. -/
theorem prepLines_eq_norm (vocab : String → Option Nat) :
    ∀ lines : List (List Char),
      (∀ l ∈ lines, isCommentLine l = false →
        ∀ col ∈ macroColumns l, col.all isDigitChar = true) →
      prepLines vocab lines =
        .ok (lines.map (fun l => if isCommentLine l then l else normLineAux l.length l)) := by
  intro lines
  induction lines with
  | nil => intro _; simp [prepLines]
  | cons l rest ih =>
    intro hall
    rw [prepLines]
    by_cases hc : isCommentLine l = true
    · rw [if_pos hc, ih (fun x hx => hall x (List.mem_cons_of_mem _ hx))]
      simp [hc, Except.map]
    · rw [if_neg hc]
      rw [subLineAux_eq_norm vocab l.length l
        (by simpa [macroColumns] using hall l (List.mem_cons_self _ _) (by simpa using hc))]
      rw [ih (fun x hx => hall x (List.mem_cons_of_mem _ hx))]
      simp [hc, Except.map]

/-- C3: for every fitted vocabulary and every template, compilation raises
an UnknownFeatureError (the KeyError of the vocabulary lookup, modelled as
Except.error) exactly when some non-comment line contains a macro whose
column token is a symbolic (non-numeric) feature name absent from the
vocabulary; when all symbolic names are known, no error is raised. -/
theorem claim_C3_unknown_feature (t : String) (vocab : String → Option Nat) :
    exceptOk (prepare_wapiti_template t vocab) = true ↔
      ∀ l ∈ splitLines t.data, isCommentLine l = false →
        ∀ col ∈ macroColumns l,
          col.all isDigitChar = true ∨ (vocab (String.mk col)).isSome = true := by
  rw [prepare_wapiti_template, exceptOk_map]
  exact prepLines_isOk_iff vocab (splitLines t.data)

/-- C6: for every vocabulary and every template in which every macro column
of every non-comment line is already a decimal integer, compilation
succeeds and returns the whitespace-normalized template, in which comment
lines are kept verbatim; moreover the per-line normalization deletes only
whitespace characters (its output is a sublist of the line that agrees
with the line once whitespace is filtered out), so all non-macro text is
unchanged. -/
theorem claim_C6_numeric_norm (t : String) (vocab : String → Option Nat)
    (h : templateColsNumeric t) :
    prepare_wapiti_template t vocab = .ok (normTemplate t)
    ∧ (∀ l ∈ splitLines t.data, isCommentLine l = true →
        (if isCommentLine l then l else normLineAux l.length l) = l)
    ∧ (∀ fuel : Nat, ∀ l : List Char, (normLineAux fuel l).Sublist l
        ∧ (normLineAux fuel l).filter (fun c => !isWsChar c) =
            l.filter (fun c => !isWsChar c)) := by
  refine ⟨?_, ?_, ?_⟩
  · rw [prepare_wapiti_template, normTemplate, prepLines_eq_norm vocab _ h]
    rfl
  · intro l _ hcl
    simp [hcl]
  · exact fun fuel l => ⟨normLineAux_sublist fuel l, normLineAux_filter fuel l⟩

/-- Witness for C6 at a concrete numeric template: the macros lose their
inner whitespace, the comment line stays, and the vocabulary is empty. -/
theorem claim_C6_witness :
    prepare_wapiti_template "u:fe=%x[ 0, 1 ]\n# c %x[0,tok]" (fun _ => none)
      = .ok (normTemplate "u:fe=%x[ 0, 1 ]\n# c %x[0,tok]")
    ∧ normTemplate "u:fe=%x[ 0, 1 ]\n# c %x[0,tok]" = "u:fe=%x[0,1]\n# c %x[0,tok]" :=
  ⟨(claim_C6_numeric_norm "u:fe=%x[ 0, 1 ]\n# c %x[0,tok]" (fun _ => none) (by decide)).1,
   by rfl⟩

/-- Lines produced by the line splitter contain no terminator characters. -/
theorem splitAux_no_term : ∀ (l acc : List Char),
    (∀ c ∈ acc, c ≠ '\n' ∧ c ≠ '\r') →
    ∀ line ∈ splitAux l acc, ∀ c ∈ line, c ≠ '\n' ∧ c ≠ '\r' := by
  intro l acc
  induction l, acc using splitAux.induct with
  | case1 acc hacc =>
    intro _ line hline
    rw [splitAux, if_pos hacc] at hline
    simp at hline
  | case2 acc hacc =>
    intro hm line hline
    rw [splitAux, if_neg hacc] at hline
    simp only [List.mem_singleton] at hline
    subst hline
    intro c hc
    exact hm c (List.mem_reverse.mp hc)
  | case3 t acc ih =>
    intro hm line hline
    rw [splitAux] at hline
    rcases List.mem_cons.mp hline with h1 | h2
    · subst h1; intro c hc; exact hm c (List.mem_reverse.mp hc)
    · exact ih (by simp) line h2
  | case4 t acc ih =>
    intro hm line hline
    rw [splitAux] at hline
    rcases List.mem_cons.mp hline with h1 | h2
    · subst h1; intro c hc; exact hm c (List.mem_reverse.mp hc)
    · exact ih (by simp) line h2
  | case5 t acc hne ih =>
    intro hm line hline
    rw [splitAux] at hline
    · rcases List.mem_cons.mp hline with h1 | h2
      · subst h1; intro c hc; exact hm c (List.mem_reverse.mp hc)
      · exact ih (by simp) line h2
    · exact hne
  | case6 c t acc hne1 hne2 hne3 ih =>
    intro hm line hline
    rw [splitAux] at hline
    · refine ih ?_ line hline
      intro d hd
      rcases List.mem_cons.mp hd with h1 | h2
      · subst h1; exact ⟨fun h => hne2 h, fun h => hne3 h⟩
      · exact hm d h2
    · exact hne1
    · exact hne2
    · exact hne3

/-- The digit rendering of decimalDigit is always a digit character. -/
theorem decimalDigit_digit (n : Nat) : isDigitChar (decimalDigit n) = true := by
  unfold decimalDigit
  split <;> rfl

/-- Every character of the decimal numeral of a natural number is a digit. -/
theorem natDecimalAux_digits : ∀ fuel n : Nat, ∀ c ∈ natDecimalAux fuel n,
    isDigitChar c = true := by
  intro fuel
  induction fuel with
  | zero => intro n c hc; simp [natDecimalAux] at hc
  | succ fuel ih =>
    intro n c hc
    rw [natDecimalAux] at hc
    split at hc
    · simp only [List.mem_singleton] at hc
      subst hc
      exact decimalDigit_digit n
    · rcases List.mem_append.mp hc with h1 | h2
      · exact ih _ c h1
      · simp only [List.mem_singleton] at h2
        subst h2
        exact decimalDigit_digit _

/-- Every character of a successful line substitution comes from the line
itself or is a digit of a rendered column index. -/
theorem subLineAux_chars (vocab : String → Option Nat) :
    ∀ fuel : Nat, ∀ l out : List Char, subLineAux vocab fuel l = .ok out →
      ∀ c ∈ out, c ∈ l ∨ isDigitChar c = true := by
  intro fuel
  induction fuel with
  | zero =>
    intro l out h c hc
    rw [subLineAux] at h
    obtain rfl : l = out := by simpa using h
    exact Or.inl hc
  | succ fuel ih =>
    intro l out h c hc
    match l with
    | [] =>
      rw [subLineAux] at h
      obtain rfl : ([] : List Char) = out := by simpa using h
      simp at hc
    | a :: cs =>
      rw [subLineAux] at h
      cases hm : matchMacro (a :: cs) with
      | none =>
        rw [hm] at h
        dsimp only at h
        cases hrec : subLineAux vocab fuel cs with
        | error e => rw [hrec] at h; simp [Except.map] at h
        | ok rs =>
          rw [hrec] at h
          obtain rfl : a :: rs = out := by simpa [Except.map] using h
          rcases List.mem_cons.mp hc with h1 | h2
          · subst h1; exact Or.inl (List.mem_cons_self _ _)
          · rcases ih cs rs hrec c h2 with hin | hdig
            · exact Or.inl (List.mem_cons_of_mem _ hin)
            · exact Or.inr hdig
      | some m =>
        rw [hm] at h
        dsimp only at h
        obtain ⟨hl, -, -, -, -, -, -, -, -⟩ := matchMacro_some hm
        by_cases hdig : m.column.all isDigitChar = true
        · rw [if_pos hdig] at h
          cases hrec : subLineAux vocab fuel m.remaining with
          | error e => rw [hrec] at h; simp [Except.map] at h
          | ok rs =>
            rw [hrec] at h
            obtain rfl : _ = out := by simpa [Except.map] using h
            have hihc := ih m.remaining rs hrec c
            rw [hl]
            simp only [List.mem_cons, List.mem_append] at hc hihc ⊢
            tauto
        · rw [if_neg hdig] at h
          cases hv : vocab (String.mk m.column) with
          | none => rw [hv] at h; simp at h
          | some n =>
            rw [hv] at h
            cases hrec : subLineAux vocab fuel m.remaining with
            | error e => rw [hrec] at h; simp [Except.map] at h
            | ok rs =>
              rw [hrec] at h
              obtain rfl : _ = out := by simpa [Except.map] using h
              have hihc := ih m.remaining rs hrec c
              have hnum := natDecimalAux_digits (n + 1) n c
              rw [hl]
              simp only [List.mem_cons, List.mem_append, natDecimal] at hc hihc hnum ⊢
              tauto

/-- Every character of a successfully processed line list comes from one of
the input lines or is a digit. -/
theorem prepLines_chars (vocab : String → Option Nat) :
    ∀ lines ls : List (List Char), prepLines vocab lines = .ok ls →
      ∀ s ∈ ls, ∀ c ∈ s, (∃ l ∈ lines, c ∈ l) ∨ isDigitChar c = true := by
  intro lines
  induction lines with
  | nil =>
    intro ls h s hs
    rw [prepLines] at h
    obtain rfl : ([] : List (List Char)) = ls := by simpa using h
    simp at hs
  | cons l rest ih =>
    intro ls h s hs c hc
    rw [prepLines] at h
    by_cases hcm : isCommentLine l = true
    · rw [if_pos hcm] at h
      cases hrec : prepLines vocab rest with
      | error e => rw [hrec] at h; simp [Except.map] at h
      | ok ss =>
        rw [hrec] at h
        obtain rfl : l :: ss = ls := by simpa [Except.map] using h
        rcases List.mem_cons.mp hs with h1 | h2
        · exact Or.inl ⟨l, List.mem_cons_self _ _, h1 ▸ hc⟩
        · rcases ih ss hrec s h2 c hc with ⟨l2, hl2, hcl2⟩ | hdig
          · exact Or.inl ⟨l2, List.mem_cons_of_mem _ hl2, hcl2⟩
          · exact Or.inr hdig
    · rw [if_neg hcm] at h
      cases hsub : subLineAux vocab l.length l with
      | error e => rw [hsub] at h; simp at h
      | ok s0 =>
        rw [hsub] at h
        cases hrec : prepLines vocab rest with
        | error e => rw [hrec] at h; simp [Except.map] at h
        | ok ss =>
          rw [hrec] at h
          obtain rfl : s0 :: ss = ls := by simpa [Except.map] using h
          rcases List.mem_cons.mp hs with h1 | h2
          · rcases subLineAux_chars vocab l.length l s0 hsub c (h1 ▸ hc) with hin | hdig
            · exact Or.inl ⟨l, List.mem_cons_self _ _, hin⟩
            · exact Or.inr hdig
          · rcases ih ss hrec s h2 c hc with ⟨l2, hl2, hcl2⟩ | hdig
            · exact Or.inl ⟨l2, List.mem_cons_of_mem _ hl2, hcl2⟩
            · exact Or.inr hdig

/-- Every character of the joined lines is a newline or comes from one of
the lines. -/
theorem joinNL_chars : ∀ ls : List (List Char), ∀ c ∈ joinNL ls,
    c = '\n' ∨ ∃ l ∈ ls, c ∈ l := by
  intro ls
  induction ls with
  | nil => intro c hc; rw [joinNL] at hc; simp at hc
  | cons l rest ih =>
    intro c hc
    cases rest with
    | nil =>
      rw [joinNL] at hc
      exact Or.inr ⟨l, List.mem_cons_self _ _, hc⟩
    | cons l2 rest2 =>
      rw [joinNL] at hc
      · rcases List.mem_append.mp hc with h1 | h2
        · exact Or.inr ⟨l, List.mem_cons_self _ _, h1⟩
        · rcases List.mem_cons.mp h2 with h3 | h4
          · exact Or.inl h3
          · rcases ih c h4 with h5 | ⟨l3, hl3, hcl3⟩
            · exact Or.inl h5
            · exact Or.inr ⟨l3, List.mem_cons_of_mem _ hl3, hcl3⟩
      · simp

/-- Appending a single line terminator to text whose last character is not
a terminator does not change how it splits into lines. -/
theorem splitAux_append_term (term : List Char)
    (hterm : term = ['\n'] ∨ term = ['\r'] ∨ term = ['\r', '\n']) :
    ∀ (l acc : List Char), l ≠ [] →
      l.getLast? ≠ some '\n' → l.getLast? ≠ some '\r' →
      splitAux (l ++ term) acc = splitAux l acc := by
  intro l acc
  induction l, acc using splitAux.induct with
  | case1 acc hacc => intro h _ _; exact absurd rfl h
  | case2 acc hacc => intro h _ _; exact absurd rfl h
  | case3 t acc ih =>
    intro _ h1 h2
    cases t with
    | nil => simp at h1
    | cons x xs =>
      have hgl : ('\r' :: '\n' :: x :: xs).getLast? = (x :: xs).getLast? := by
        rw [List.getLast?_cons_cons, List.getLast?_cons_cons]
      rw [hgl] at h1 h2
      rw [List.cons_append, List.cons_append, splitAux, splitAux]
      rw [ih (by simp) h1 h2]
  | case4 t acc ih =>
    intro _ h1 h2
    cases t with
    | nil => simp at h1
    | cons x xs =>
      have hgl : ('\n' :: x :: xs).getLast? = (x :: xs).getLast? :=
        List.getLast?_cons_cons
      rw [hgl] at h1 h2
      rw [List.cons_append, splitAux, splitAux]
      rw [ih (by simp) h1 h2]
  | case5 t acc hne ih =>
    intro _ h1 h2
    cases t with
    | nil => simp at h2
    | cons x xs =>
      have hxne : x ≠ '\n' := by
        intro hx
        exact hne xs (by rw [hx])
      have hgl : ('\r' :: x :: xs).getLast? = (x :: xs).getLast? :=
        List.getLast?_cons_cons
      rw [hgl] at h1 h2
      rw [List.cons_append, splitAux, splitAux]
      · rw [ih (by simp) h1 h2]
      · intro t1 ht1
        exact hne t1 ht1
      · intro t1 ht1
        rw [List.cons_append] at ht1
        exact hxne (by injection ht1)
  | case6 c t acc hne1 hne2 hne3 ih =>
    intro _ h1 h2
    have hcn : c ≠ '\n' := fun h => hne2 h
    have hcr : c ≠ '\r' := fun h => hne3 h
    cases t with
    | nil =>
      rcases hterm with rfl | rfl | rfl <;>
        simp [splitAux, hcn, hcr]
    | cons x xs =>
      have hgl : (c :: x :: xs).getLast? = (x :: xs).getLast? :=
        List.getLast?_cons_cons
      rw [hgl] at h1 h2
      rw [List.cons_append, splitAux, splitAux]
      · rw [ih (by simp) h1 h2]
      · intro t1 hcr2 _
        exact hcr hcr2
      · exact fun h => hcn h
      · exact fun h => hcr h
      · intro t1 hcr2 _
        exact hcr hcr2
      · exact fun h => hcn h
      · exact fun h => hcr h

/-- C10 counterexample: an input whose last line is empty (two trailing
terminators) compiles to output that still ends with a newline, so the
output is not free of trailing line terminators whenever the input has
one. -/
theorem claim_C10_counterexample :
    prepare_wapiti_template "a\n\n" (fun _ => none) = .ok "a\n"
    ∧ endsWithTerm "a\n\n" ∧ endsWithTerm "a\n" :=
  ⟨by rfl, by decide, by decide⟩

/-- C10 as amended: the compiler splits on newline, carriage return and
carriage-return-newline and rejoins with single newlines, so compiled
output never contains a carriage return, and a single trailing line
terminator of any of the three kinds is dropped: appending one to a
template not already ending in a terminator does not change the output.
An input ending in a terminator can still produce output ending in a
newline when its final line is empty. -/
theorem claim_C10_line_normalization (t : String) (vocab : String → Option Nat) :
    (∀ s : String, prepare_wapiti_template t vocab = .ok s → '\r' ∉ s.data)
    ∧ (¬ endsWithTerm t →
        prepare_wapiti_template (t ++ "\n") vocab = prepare_wapiti_template t vocab
        ∧ prepare_wapiti_template (t ++ "\r") vocab = prepare_wapiti_template t vocab
        ∧ prepare_wapiti_template (t ++ "\r\n") vocab = prepare_wapiti_template t vocab) := by
  constructor
  · intro s hok hr
    rw [prepare_wapiti_template] at hok
    cases hp : prepLines vocab (splitLines t.data) with
    | error e => rw [hp] at hok; simp [Except.map] at hok
    | ok ls =>
      rw [hp] at hok
      obtain rfl : String.mk (joinNL ls) = s := by simpa [Except.map] using hok
      have hr2 : '\r' ∈ joinNL ls := hr
      rcases joinNL_chars ls '\r' hr2 with h1 | ⟨l, hl, hcl⟩
      · exact absurd h1 (by decide)
      · rcases prepLines_chars vocab _ ls hp l hl '\r' hcl with ⟨l0, hl0, hcl0⟩ | hdig
        · exact (splitAux_no_term t.data [] (by simp) l0 hl0 '\r' hcl0).2 rfl
        · exact absurd hdig (by decide)
  · intro hnet
    rcases hd : t.data with _ | ⟨x, xs⟩
    · have ht : t = "" := by
        cases t
        simp_all
      subst ht
      exact ⟨rfl, rfl, rfl⟩
    · have hne : t.data ≠ [] := by rw [hd]; simp
      have h1 : t.data.getLast? ≠ some '\n' := fun h => hnet (Or.inl h)
      have h2 : t.data.getLast? ≠ some '\r' := fun h => hnet (Or.inr h)
      refine ⟨?_, ?_, ?_⟩
      · rw [prepare_wapiti_template, prepare_wapiti_template]
        rw [show splitLines (t ++ "\n").data = splitLines t.data from ?_]
        rw [String.data_append]
        exact splitAux_append_term ['\n'] (Or.inl rfl) t.data [] hne h1 h2
      · rw [prepare_wapiti_template, prepare_wapiti_template]
        rw [show splitLines (t ++ "\r").data = splitLines t.data from ?_]
        rw [String.data_append]
        exact splitAux_append_term ['\r'] (Or.inr (Or.inl rfl)) t.data [] hne h1 h2
      · rw [prepare_wapiti_template, prepare_wapiti_template]
        rw [show splitLines (t ++ "\r\n").data = splitLines t.data from ?_]
        rw [String.data_append]
        exact splitAux_append_term ['\r', '\n'] (Or.inr (Or.inr rfl)) t.data [] hne h1 h2

/-- Membership in the modelled set union. -/
theorem mem_pyUnion {x : String} {a b : List String} :
    x ∈ pyUnion a b ↔ x ∈ a ∨ x ∈ b := List.mem_append

/-- Membership in the modelled set difference. -/
theorem mem_pyDiff {x : String} {a b : List String} :
    x ∈ pyDiff a b ↔ x ∈ a ∧ x ∉ b := by
  simp [pyDiff, List.mem_filter, List.contains, List.elem_iff]

/-- The canonical set enumeration has the same members as its input. -/
theorem mem_pySetList {x : String} {s : List String} :
    x ∈ pySetList s ↔ x ∈ s := by
  simp [pySetList, List.mem_insertionSort, List.mem_dedup]

/-- The canonical set enumeration lists each member once. -/
theorem nodup_pySetList (s : List String) : (pySetList s).Nodup :=
  (List.perm_insertionSort _ _).nodup_iff.mpr (List.nodup_dedup s)

/-- Folding the vocabulary-lookup step over a dict from any accumulator:
when the key occurs, the result is the plain lookup, otherwise the
accumulator survives. -/
theorem vlookup_foldl (k : String) :
    ∀ (d : List (String × Nat)) (acc : Option Nat),
      d.foldl (fun acc p => if p.1 = k then some p.2 else acc) acc =
        if ∃ p ∈ d, p.1 = k then vlookup d k else acc := by
  intro d
  induction d with
  | nil => intro acc; simp [vlookup]
  | cons p rest ih =>
    intro acc
    rw [List.foldl_cons, ih]
    by_cases h1 : ∃ q ∈ rest, q.1 = k
    · rw [if_pos h1, if_pos ⟨h1.choose, List.mem_cons_of_mem _ h1.choose_spec.1, h1.choose_spec.2⟩]
      have hv : vlookup (p :: rest) k =
          if ∃ q ∈ rest, q.1 = k then vlookup rest k
          else (if p.1 = k then some p.2 else none) := by
        rw [vlookup, List.foldl_cons]
        exact ih _
      rw [hv, if_pos h1]
    · rw [if_neg h1]
      by_cases h2 : p.1 = k
      · rw [if_pos h2]
        rw [if_pos (show ∃ q ∈ p :: rest, q.1 = k from ⟨p, List.mem_cons_self _ _, h2⟩)]
        have hv : vlookup (p :: rest) k =
            if ∃ q ∈ rest, q.1 = k then vlookup rest k
            else (if p.1 = k then some p.2 else none) := by
          rw [vlookup, List.foldl_cons]
          exact ih _
        rw [hv, if_neg h1, if_pos h2]
      · rw [if_neg h2, if_neg ?_]
        rintro ⟨q, hq, hqk⟩
        rcases List.mem_cons.mp hq with rfl | hmem
        · exact h2 hqk
        · exact h1 ⟨q, hmem, hqk⟩

/-- Appending dict entries none of which carry the key leaves lookup
unchanged. -/
theorem vlookup_append_no_key (d1 d2 : List (String × Nat)) (k : String)
    (h : ∀ p ∈ d2, p.1 ≠ k) : vlookup (d1 ++ d2) k = vlookup d1 k := by
  rw [vlookup, List.foldl_append]
  have : d1.foldl (fun acc p => if p.1 = k then some p.2 else acc) none = vlookup d1 k := rfl
  rw [this, vlookup_foldl k d2 (vlookup d1 k), if_neg]
  rintro ⟨q, hq, hqk⟩
  exact h q hq hqk

/-- Enumeration distributes over append, shifting the start index. -/
theorem enumFrom_append : ∀ (n : Nat) (a b : List String),
    enumFrom n (a ++ b) = enumFrom n a ++ enumFrom (n + a.length) b := by
  intro n a
  induction a generalizing n with
  | nil => intro b; simp [enumFrom]
  | cons f rest ih =>
    intro b
    rw [List.cons_append, enumFrom, enumFrom, ih (n + 1) b, List.cons_append]
    have : n + 1 + rest.length = n + (f :: rest).length := by
      simp [List.length_cons]
      omega
    rw [this]

/-- The key of any enumerated pair is a member of the enumerated list. -/
theorem enumFrom_key_mem {p : String × Nat} : ∀ {n : Nat} {l : List String},
    p ∈ enumFrom n l → p.1 ∈ l := by
  intro n l
  induction l generalizing n with
  | nil => intro h; simp [enumFrom] at h
  | cons f rest ih =>
    intro h
    rw [enumFrom] at h
    rcases List.mem_cons.mp h with rfl | hmem
    · exact List.mem_cons_self _ _
    · exact List.mem_cons_of_mem _ (ih hmem)

/-- Looking a duplicate-free list's element up in its own enumeration gives
the element's position shifted by the start index. -/
theorem vlookup_enumFrom : ∀ (mtf : List String), mtf.Nodup →
    ∀ (n i : Nat) (hi : i < mtf.length),
      vlookup (enumFrom n mtf) (mtf.get ⟨i, hi⟩) = some (n + i) := by
  intro mtf
  induction mtf with
  | nil =>
    intro _ n i hi
    simp at hi
  | cons f rest ih =>
    intro hnd n i hi
    match i with
    | 0 =>
      rw [enumFrom]
      show vlookup ((f, n) :: enumFrom (n + 1) rest) f = some (n + 0)
      rw [vlookup, List.foldl_cons]
      have hstep : (if ((f, n) : String × Nat).1 = f then some ((f, n) : String × Nat).2
          else (none : Option Nat)) = some n := by simp
      rw [hstep, vlookup_foldl f (enumFrom (n + 1) rest) (some n), if_neg]
      · simp
      · rintro ⟨q, hq, hqk⟩
        exact (List.nodup_cons.mp hnd).1 (hqk ▸ enumFrom_key_mem hq)
    | j + 1 =>
      rw [enumFrom]
      have hj : j < rest.length := by simpa [List.length_cons] using hi
      show vlookup ((f, n) :: enumFrom (n + 1) rest) (rest.get ⟨j, hj⟩) = some (n + (j + 1))
      rw [vlookup, List.foldl_cons]
      have hne : ¬ f = rest.get ⟨j, hj⟩ := by
        intro hf
        exact (List.nodup_cons.mp hnd).1 (hf ▸ List.get_mem rest j hj)
      simp only [if_neg hne]
      have := ih (List.nodup_cons.mp hnd).2 (n + 1) j hj
      rw [vlookup] at this
      rw [this]
      congr 1
      omega

/-- In an enumerated vocabulary over move-to-front names followed by a
disjoint tail, each move-to-front name resolves to its declared leading
position. -/
theorem vlookup_mkVocab_prefix (mtf tail : List String) (hnodup : mtf.Nodup)
    (hdisj : ∀ x ∈ tail, x ∉ mtf) (i : Nat) (hi : i < mtf.length) :
    vlookup (mkVocab (mtf ++ tail)) (mtf.get ⟨i, hi⟩) = some i := by
  rw [mkVocab, enumFrom_append, vlookup_append_no_key]
  · have := vlookup_enumFrom mtf hnodup 0 i hi
    simpa using this
  · intro p hp hpk
    exact hdisj p.1 (enumFrom_key_mem hp) (hpk ▸ List.get_mem mtf i hi)

/-- Membership in the key set folded over the sequences of one nonempty
partial_fit call: a key survives exactly when it was seeded or observed in
some sequence, and is not a move-to-front name. -/
theorem foldKeys_mem {α : Type} (mtf : List String) :
    ∀ (X : List (List (FDict α))) (ks0 : List String), X ≠ [] →
      ∀ x, (x ∈ X.foldl
          (fun ks doc => pyDiff (pyUnion ks (get_combined_keys doc)) mtf) ks0 ↔
        ((x ∈ ks0 ∨ ∃ doc ∈ X, x ∈ get_combined_keys doc) ∧ x ∉ mtf)) := by
  intro X
  induction X with
  | nil => intro ks0 h; exact absurd rfl h
  | cons doc rest ih =>
    intro ks0 _ x
    rw [List.foldl_cons]
    by_cases hr : rest = []
    · subst hr
      simp only [List.foldl_nil, mem_pyDiff, mem_pyUnion, List.mem_cons,
        exists_eq_or_imp]
      simp
    · rw [ih _ hr x]
      simp only [mem_pyDiff, mem_pyUnion, List.mem_cons, exists_eq_or_imp]
      tauto

/-- Effect of one nonempty partial_fit call: the move-to-front names stay
first, the stored names are the move-to-front names followed by an
enumerated tail, the vocabulary is rebuilt from them, and the tail holds
exactly the seeded or newly observed names outside the move-to-front
set. -/
theorem partial_fit_spec {α : Type} (mtf : List String) (e : WapitiFeatureEncoder)
    (X : List (List (FDict α))) (hX : X ≠ []) (hm : e.move_to_front = mtf) :
    (e.partial_fit X).move_to_front = mtf
    ∧ ∃ tail : List String,
      (e.partial_fit X).feature_names_ = some (mtf ++ tail)
      ∧ (e.partial_fit X).vocabulary_ = some (mkVocab (mtf ++ tail))
      ∧ tail.Nodup
      ∧ ∀ x, x ∈ tail ↔
          ((x ∈ e.feature_names_.getD [] ∨ ∃ doc ∈ X, x ∈ get_combined_keys doc)
            ∧ x ∉ mtf) := by
  subst hm
  refine ⟨rfl,
    pySetList (X.foldl
      (fun ks doc => pyDiff (pyUnion ks (get_combined_keys doc)) e.move_to_front)
      (e.feature_names_.getD [])),
    rfl, rfl, nodup_pySetList _, ?_⟩
  intro x
  rw [mem_pySetList]
  exact foldKeys_mem e.move_to_front X _ hX x

/-- Membership in the observed keys of a cons of batches. -/
theorem mem_allObservedKeys_cons {α : Type} {x : String}
    {X : List (List (FDict α))} {rest : List (List (List (FDict α)))} :
    x ∈ allObservedKeys (X :: rest) ↔
      (∃ doc ∈ X, x ∈ get_combined_keys doc) ∨ x ∈ allObservedKeys rest := by
  simp [allObservedKeys, List.mem_flatten, List.mem_map]

/-- Folding nonempty partial_fit batches over an already-fitted encoder
keeps the move-to-front prefix and grows the tail to exactly the union of
the seeded tail and all newly observed names outside the move-to-front
set. -/
theorem partial_fit_batches {α : Type} (mtf : List String) :
    ∀ (batches : List (List (List (FDict α)))) (e : WapitiFeatureEncoder)
      (tail0 : List String),
      (∀ X ∈ batches, X ≠ []) →
      e.move_to_front = mtf →
      e.feature_names_ = some (mtf ++ tail0) →
      e.vocabulary_ = some (mkVocab (mtf ++ tail0)) →
      (∀ x ∈ tail0, x ∉ mtf) → tail0.Nodup →
      ∃ tail : List String,
        (batches.foldl (fun e X => e.partial_fit X) e).move_to_front = mtf
        ∧ (batches.foldl (fun e X => e.partial_fit X) e).feature_names_
            = some (mtf ++ tail)
        ∧ (batches.foldl (fun e X => e.partial_fit X) e).vocabulary_
            = some (mkVocab (mtf ++ tail))
        ∧ tail.Nodup ∧ (∀ x ∈ tail, x ∉ mtf)
        ∧ (∀ x, x ∈ tail ↔ ((x ∈ tail0 ∨ x ∈ allObservedKeys batches) ∧ x ∉ mtf)) := by
  intro batches
  induction batches with
  | nil =>
    intro e tail0 _ hm hf hv hd hn
    refine ⟨tail0, hm, hf, hv, hn, hd, ?_⟩
    intro x
    simp only [allObservedKeys, List.map_nil, List.flatten_nil,
      List.not_mem_nil, or_false]
    exact ⟨fun hx => ⟨hx, hd x hx⟩, fun h => h.1⟩
  | cons X rest ih =>
    intro e tail0 hne hm hf hv hd hn
    rw [List.foldl_cons]
    obtain ⟨hm1, tail1, hf1, hv1, hn1, hmem1⟩ :=
      partial_fit_spec mtf e X (hne X (List.mem_cons_self _ _)) hm
    have hd1 : ∀ x ∈ tail1, x ∉ mtf := fun x hx => ((hmem1 x).mp hx).2
    obtain ⟨tail2, h2m, h2f, h2v, h2n, h2d, h2mem⟩ :=
      ih (e.partial_fit X) tail1 (fun Y hY => hne Y (List.mem_cons_of_mem _ hY))
        hm1 hf1 hv1 hd1 hn1
    refine ⟨tail2, h2m, h2f, h2v, h2n, h2d, ?_⟩
    intro x
    rw [h2mem x]
    have hmem1x := hmem1 x
    rw [hf] at hmem1x
    simp only [Option.getD_some, List.mem_append] at hmem1x
    rw [mem_allObservedKeys_cons]
    constructor
    · rintro ⟨h1 | hobs, hnm⟩
      · rcases (hmem1x.mp h1).1 with (hm0 | ht0) | hX0
        · exact absurd hm0 hnm
        · exact ⟨Or.inl ht0, hnm⟩
        · exact ⟨Or.inr (Or.inl hX0), hnm⟩
      · exact ⟨Or.inr (Or.inr hobs), hnm⟩
    · rintro ⟨ht0 | hX0 | hobs, hnm⟩
      · exact ⟨Or.inl (hmem1x.mpr ⟨Or.inl (Or.inr ht0), hnm⟩), hnm⟩
      · exact ⟨Or.inl (hmem1x.mpr ⟨Or.inr hX0, hnm⟩), hnm⟩
      · exact ⟨Or.inr hobs, hnm⟩

/-- C1 counterexample: column indices of already-seen names are not stable
across further partial_fit calls. A partial_fit call with an empty sequence
list re-seeds the key set from the full name tuple without subtracting the
move-to-front names, duplicating them into the tail, so the move-to-front
name token moves from column 0 to column 2 in the rebuilt vocabulary; and
refitting on more data can reorder the unordered tail (set enumeration
order is not insertion order), moving the already-seen name b from column
1 to column 2. -/
theorem claim_C1_counterexample :
    (vocabFun (((WapitiFeatureEncoder.init ["token"]).partial_fit (α := String)
        [[[("a", "v")]]]).vocabulary_) "token" = some 0)
    ∧ (vocabFun ((((WapitiFeatureEncoder.init ["token"]).partial_fit (α := String)
        [[[("a", "v")]]]).partial_fit (α := String) []).vocabulary_) "token" = some 2)
    ∧ (vocabFun (((WapitiFeatureEncoder.init ["token"]).partial_fit (α := String)
        [[[("b", "v")]]]).vocabulary_) "b" = some 1)
    ∧ (vocabFun ((((WapitiFeatureEncoder.init ["token"]).partial_fit (α := String)
        [[[("b", "v")]]]).partial_fit (α := String) [[[("a", "v")]]]).vocabulary_) "b"
          = some 2) := by
  refine ⟨by rfl, by rfl, by rfl, by rfl⟩

/-- C1 as amended: after any nonempty run of partial_fit calls that each
process at least one sequence, the move-to-front names (assumed distinct)
occupy columns 0..k-1 of the vocabulary, and the tail contains exactly the
names observed so far outside the move-to-front set, each once — so tail
membership is stable and order-independent, while tail positions are not
guaranteed. -/
theorem claim_C1_move_to_front_stable {α : Type} (mtf : List String)
    (batches : List (List (List (FDict α)))) (hnodup : mtf.Nodup)
    (hb : batches ≠ []) (hne : ∀ X ∈ batches, X ≠ []) :
    ∃ tail : List String,
      (batches.foldl (fun e X => e.partial_fit X)
          (WapitiFeatureEncoder.init mtf)).feature_names_ = some (mtf ++ tail)
      ∧ (batches.foldl (fun e X => e.partial_fit X)
          (WapitiFeatureEncoder.init mtf)).vocabulary_ = some (mkVocab (mtf ++ tail))
      ∧ tail.Nodup ∧ (∀ x ∈ tail, x ∉ mtf)
      ∧ (∀ x, x ∈ tail ↔ (x ∈ allObservedKeys batches ∧ x ∉ mtf))
      ∧ ∀ (i : Nat) (hi : i < mtf.length),
          vlookup (mkVocab (mtf ++ tail)) (mtf.get ⟨i, hi⟩) = some i := by
  rcases batches with _ | ⟨X, rest⟩
  · exact absurd rfl hb
  · rw [List.foldl_cons]
    obtain ⟨hm1, tail1, hf1, hv1, hn1, hmem1⟩ :=
      partial_fit_spec mtf (WapitiFeatureEncoder.init mtf) X
        (hne X (List.mem_cons_self _ _)) rfl
    have hd1 : ∀ x ∈ tail1, x ∉ mtf := fun x hx => ((hmem1 x).mp hx).2
    obtain ⟨tail2, h2m, h2f, h2v, h2n, h2d, h2mem⟩ :=
      partial_fit_batches mtf rest ((WapitiFeatureEncoder.init mtf).partial_fit X)
        tail1 (fun Y hY => hne Y (List.mem_cons_of_mem _ hY)) hm1 hf1 hv1 hd1 hn1
    refine ⟨tail2, h2f, h2v, h2n, h2d, ?_, ?_⟩
    · intro x
      rw [h2mem x, mem_allObservedKeys_cons]
      have hmem1x := hmem1 x
      simp only [WapitiFeatureEncoder.init, Option.getD_none, List.not_mem_nil,
        false_or] at hmem1x
      constructor
      · rintro ⟨h1 | hobs, hnm⟩
        · exact ⟨Or.inl (hmem1x.mp h1).1, hnm⟩
        · exact ⟨Or.inr hobs, hnm⟩
      · rintro ⟨hX0 | hobs, hnm⟩
        · exact ⟨Or.inl (hmem1x.mpr ⟨hX0, hnm⟩), hnm⟩
        · exact ⟨Or.inr hobs, hnm⟩
    · exact fun i hi => vlookup_mkVocab_prefix mtf tail2 hnodup h2d i hi

/-- Witness for the amended C1 at a concrete run: one batch with one
sequence naming feature a, move-to-front name token. -/
theorem claim_C1_witness :
    ∃ tail : List String,
      ([[[[("a", "v")]]]].foldl (fun e X => e.partial_fit X)
          (WapitiFeatureEncoder.init ["token"])).feature_names_
        = some (["token"] ++ tail)
      ∧ ([[[[("a", "v")]]]].foldl (fun e X => e.partial_fit X)
          (WapitiFeatureEncoder.init ["token"])).vocabulary_
        = some (mkVocab (["token"] ++ tail))
      ∧ tail.Nodup ∧ (∀ x ∈ tail, x ∉ ["token"])
      ∧ (∀ x, x ∈ tail ↔ (x ∈ allObservedKeys [[[[("a", "v")]]]] ∧ x ∉ ["token"]))
      ∧ ∀ (i : Nat) (hi : i < (["token"] : List String).length),
          vlookup (mkVocab (["token"] ++ tail)) ((["token"] : List String).get ⟨i, hi⟩)
            = some i :=
  claim_C1_move_to_front_stable ["token"] [[[[("a", "v")]]]]
    (by decide) (by decide) (by decide)

/-- C2 at the failing input: after fitting on one sequence with feature
name tag and calling reset, feature_names_ is None again but vocabulary_
still holds the previous fit's dict, and prepare_template still resolves
tag to its old column through it — the supposedly cleared mapping remains
observable. -/
theorem claim_C2_reset_keeps_vocabulary :
    ((((WapitiFeatureEncoder.init ["token"]).partial_fit (α := String)
        [[[("tag", "NN")]]]).reset).feature_names_ = none)
    ∧ ((((WapitiFeatureEncoder.init ["token"]).partial_fit (α := String)
        [[[("tag", "NN")]]]).reset).vocabulary_ = some [("token", 0), ("tag", 1)])
    ∧ ((((WapitiFeatureEncoder.init ["token"]).partial_fit (α := String)
        [[[("tag", "NN")]]]).reset).prepare_template "%x[0,tag]" = .ok "%x[0,1]") :=
  ⟨rfl, by rfl, by rfl⟩

/-- Filtering with no tagset is the identity, and the empty token stream
passes through unchanged either way. -/
theorem limit_tags_nil {σ : Type} (tz : HtmlTokenizerM σ) : limit_tags tz [] = [] := by
  rw [limit_tags]
  cases tz.tagset <;> simp

/-- A segment whose text is absent or empty emits nothing. -/
theorem segmentPairs_no_text {σ : Type} (tz : HtmlTokenizerM σ)
    (hempty : ∀ s : σ, (tz.encoder.encode_split s []).2 = ([], []))
    (htokF : tz.text_tokenize_func "" = [])
    (s : σ) (text : Option String) (elem : HTree) (b : Bool)
    (h : text.getD "" = "") :
    (segmentPairs tz s text elem b).2 = [] := by
  rw [segmentPairs, tokenize_and_split, h, htokF, limit_tags_nil]
  have h2 := hempty s
  rcases hr : tz.encoder.encode_split s [] with ⟨s2, toks, tags⟩
  rw [hr] at h2
  obtain ⟨rfl, rfl⟩ : toks = [] ∧ tags = [] := by simpa using h2
  simp

/-- A tree with no text at all emits no pairs from any encoder state, and
neither does any of its child lists. -/
theorem process_tree_no_text {σ : Type} (tz : HtmlTokenizerM σ)
    (hempty : ∀ s : σ, (tz.encoder.encode_split s []).2 = ([], []))
    (htokF : tz.text_tokenize_func "" = []) :
    (∀ (s : σ) (t : HTree), treeNoText t = true → (process_tree tz s t).2 = [])
    ∧ (∀ (s : σ) (cs : List HTree), forestNoText cs = true →
        (process_children tz s cs).2 = []) := by
  refine process_tree.mutual_induct tz
    (fun s t => treeNoText t = true → (process_tree tz s t).2 = [])
    (fun s cs => forestNoText cs = true → (process_children tz s cs).2 = [])
    ?_ ?_ ?_
  · intro s tag text children tl head ihc hnt
    rw [treeNoText.eq_def] at hnt
    simp only [Bool.and_eq_true, beq_iff_eq] at hnt
    rw [process_tree]
    simp only
    rw [segmentPairs_no_text tz hempty htokF _ _ _ _ hnt.1.1,
      segmentPairs_no_text tz hempty htokF _ _ _ _ hnt.2,
      ihc hnt.1.2]
    simp
  · intro s _
    rw [process_children]
  · intro s c rest r ih1 ih2 hnt
    rw [forestNoText.eq_def] at hnt
    simp only [Bool.and_eq_true] at hnt
    rw [process_children]
    simp only
    rw [ih1 hnt.1, ih2 hnt.2]
    simp

/-- C7: tokenize_single returns two equal-length positionally aligned
lists, exactly the fst-projection and snd-projection of the single emitted
pair list (so the token and the tag at every index come from the same
pair); the walk emits, for every element, the head-text pairs, then each
child's pairs recursively in child order, then the tail-text pairs,
threading the encoder state left to right; and a tree containing no text
yields two empty lists, provided the external tokenizer yields no tokens
for empty text, the sequence encoder returns empty outputs on an empty
stream, and the configured preprocessing does not introduce text. -/
theorem claim_C7_document_order {σ : Type} (tz : HtmlTokenizerM σ) (tree : HTree)
    (hempty : ∀ s : σ, (tz.encoder.encode_split s []).2 = ([], []))
    (htokF : tz.text_tokenize_func "" = [])
    (hprep : treeNoText tree = true → treeNoText (tz.prep tree) = true) :
    (tokenize_single tz tree
        = ((process_tree tz tz.encoder.init (tz.prep tree)).2.map Prod.fst,
           (process_tree tz tz.encoder.init (tz.prep tree)).2.map Prod.snd)
      ∧ (tokenize_single tz tree).1.length = (tokenize_single tz tree).2.length)
    ∧ (treeNoText tree = true → tokenize_single tz tree = ([], []))
    ∧ (∀ (s : σ) (tag : String) (text : Option String) (children : List HTree)
        (tl : Option String),
        process_tree tz s (.node tag text children tl)
          = ((segmentPairs tz
                (process_children tz
                  (segmentPairs tz s text (.node tag text children tl) false).1
                  children).1
                tl (.node tag text children tl) true).1,
             (segmentPairs tz s text (.node tag text children tl) false).2
               ++ (process_children tz
                    (segmentPairs tz s text (.node tag text children tl) false).1
                    children).2
               ++ (segmentPairs tz
                    (process_children tz
                      (segmentPairs tz s text (.node tag text children tl) false).1
                      children).1
                    tl (.node tag text children tl) true).2))
    ∧ (∀ (s : σ) (c : HTree) (rest : List HTree),
        process_children tz s (c :: rest)
          = ((process_children tz (process_tree tz s c).1 rest).1,
             (process_tree tz s c).2
               ++ (process_children tz (process_tree tz s c).1 rest).2)) := by
  refine ⟨⟨rfl, by simp [tokenize_single, tokenize_walk]⟩, ?_, ?_, ?_⟩
  · intro hnt
    rw [tokenize_single, tokenize_walk]
    rw [(process_tree_no_text tz hempty htokF).1 tz.encoder.init (tz.prep tree) (hprep hnt)]
    rfl
  · intro s tag text children tl
    rw [process_tree]
  · intro s c rest
    rw [process_children]

/-- Witness for C7 at a concrete configuration: a trivial encoder tagging
every token O, a tokenizer that returns no tokens for empty text, identity
preprocessing, and a two-element tree with no text. -/
theorem claim_C7_witness :
    ((tokenize_single (σ := Unit)
        ⟨none, fun t => if t = "" then [] else [t],
          ⟨(), fun s toks => (s, toks, toks.map (fun _ => "O")), fun tok => ("token", tok)⟩,
          id⟩
        (.node "p" none [.node "b" none [] none] none)).1.length
      = (tokenize_single (σ := Unit)
        ⟨none, fun t => if t = "" then [] else [t],
          ⟨(), fun s toks => (s, toks, toks.map (fun _ => "O")), fun tok => ("token", tok)⟩,
          id⟩
        (.node "p" none [.node "b" none [] none] none)).2.length)
    ∧ (tokenize_single (σ := Unit)
        ⟨none, fun t => if t = "" then [] else [t],
          ⟨(), fun s toks => (s, toks, toks.map (fun _ => "O")), fun tok => ("token", tok)⟩,
          id⟩
        (.node "p" none [.node "b" none [] none] none) = ([], [])) := by
  have h := claim_C7_document_order (σ := Unit)
    ⟨none, fun t => if t = "" then [] else [t],
      ⟨(), fun s toks => (s, toks, toks.map (fun _ => "O")), fun tok => ("token", tok)⟩,
      id⟩
    (.node "p" none [.node "b" none [] none] none)
    (fun s => rfl) (by simp) (fun h => h)
  refine ⟨h.1.2, h.2.1 ?_⟩
  simp [treeNoText.eq_def, forestNoText.eq_def]

/-- C8: tokenize_single never mutates the caller's tree. On the store
model, the walk deep-copies the referenced tree into a fresh slot, the
kill-tags and replace-tags preprocessing rewrites only that private slot,
every pre-existing slot (the referenced tree included) is unchanged, and
the emitted result is the pure walk of the prepared private copy. -/
theorem claim_C8_no_tree_mutation {σ : Type} (tz : HtmlTokenizerM σ)
    (store : TreeStore) (ref : Nat) (h : ref < store.length) :
    (∀ i : Nat, i < store.length →
      ((tokenize_single_st tz store ref).1)[i]? = store[i]?)
    ∧ ((tokenize_single_st tz store ref).1)[ref]? = some (store.getD ref emptyTree)
    ∧ (tokenize_single_st tz store ref).2 = tokenize_single tz (store.getD ref emptyTree) := by
  have hcopy : ((store ++ [store.getD ref emptyTree]).set store.length
      (tz.prep ((store ++ [store.getD ref emptyTree]).getD store.length emptyTree)))
      = store ++ [tz.prep (store.getD ref emptyTree)] := by
    have hat : (store ++ [store.getD ref emptyTree])[store.length]?
        = some (store.getD ref emptyTree) := List.getElem?_concat_length _ _
    have hgd : (store ++ [store.getD ref emptyTree]).getD store.length emptyTree
        = store.getD ref emptyTree := by
      rw [List.getD, List.get?_eq_getElem?, hat]
      rfl
    rw [hgd]
    have hlen : store.length < (store ++ [store.getD ref emptyTree]).length := by
      simp
    rw [List.set_append_right _ _ (Nat.le_refl _)]
    · simp
  refine ⟨?_, ?_, ?_⟩
  · intro i hi
    show ((store ++ [store.getD ref emptyTree]).set store.length
      (tz.prep ((store ++ [store.getD ref emptyTree]).getD store.length emptyTree)))[i]?
      = store[i]?
    rw [hcopy]
    exact List.getElem?_append_left hi
  · show ((store ++ [store.getD ref emptyTree]).set store.length
      (tz.prep ((store ++ [store.getD ref emptyTree]).getD store.length emptyTree)))[ref]?
      = some (store.getD ref emptyTree)
    rw [hcopy, List.getElem?_append_left h, List.getD, List.get?_eq_getElem?]
    cases hx : store[ref]? with
    | none =>
      exact absurd hx (by simp [h])
    | some v => simp [hx]
  · show tokenize_walk tz (((store ++ [store.getD ref emptyTree]).set store.length
        (tz.prep ((store ++ [store.getD ref emptyTree]).getD store.length emptyTree))).getD
          store.length emptyTree)
      = tokenize_single tz (store.getD ref emptyTree)
    rw [hcopy, tokenize_single, List.getD, List.get?_eq_getElem?, List.getElem?_concat_length]
    rfl

/-- Witness for C8 on a concrete one-slot store. -/
theorem claim_C8_witness :
    (∀ i : Nat, i < ([HTree.node "p" none [] none] : TreeStore).length →
      ((tokenize_single_st (σ := Unit)
          ⟨none, fun t => [t], ⟨(), fun s toks => (s, toks, toks), fun tok => ("token", tok)⟩, id⟩
          [HTree.node "p" none [] none] 0).1)[i]?
        = ([HTree.node "p" none [] none] : TreeStore)[i]?)
    ∧ ((tokenize_single_st (σ := Unit)
          ⟨none, fun t => [t], ⟨(), fun s toks => (s, toks, toks), fun tok => ("token", tok)⟩, id⟩
          [HTree.node "p" none [] none] 0).1)[0]?
        = some (([HTree.node "p" none [] none] : TreeStore).getD 0 emptyTree)
    ∧ (tokenize_single_st (σ := Unit)
          ⟨none, fun t => [t], ⟨(), fun s toks => (s, toks, toks), fun tok => ("token", tok)⟩, id⟩
          [HTree.node "p" none [] none] 0).2
        = tokenize_single (σ := Unit)
            ⟨none, fun t => [t], ⟨(), fun s toks => (s, toks, toks), fun tok => ("token", tok)⟩, id⟩
            (([HTree.node "p" none [] none] : TreeStore).getD 0 emptyTree) :=
  claim_C8_no_tree_mutation
    ⟨none, fun t => [t], ⟨(), fun s toks => (s, toks, toks), fun tok => ("token", tok)⟩, id⟩
    [HTree.node "p" none [] none] 0 (by decide)

/-- C9: with no tagset configured the token stream passes to the sequence
encoder unfiltered; with a tagset, the kept tokens form a sublist (original
order) of the input and a token is kept exactly when it is not classified
as an entity-start or entity-end marker whose value lies outside the
tagset; and the filtered stream is exactly what _tokenize_and_split feeds
into the encoder. -/
theorem claim_C9_tagset_filter {σ : Type} (tz : HtmlTokenizerM σ) :
    (tz.tagset = none → ∀ toks : List String, limit_tags tz toks = toks)
    ∧ (∀ ts : List String, tz.tagset = some ts → ∀ toks : List String,
        List.Sublist (limit_tags tz toks) toks
        ∧ (∀ tok ∈ toks, (tok ∈ limit_tags tz toks ↔
            ¬(((tz.encoder.classify tok).1 = "start" ∨ (tz.encoder.classify tok).1 = "end")
              ∧ (tz.encoder.classify tok).2 ∉ ts))))
    ∧ (∀ (s : σ) (text : Option String),
        tokenize_and_split tz s text
          = tz.encoder.encode_split s (limit_tags tz (tz.text_tokenize_func (text.getD "")))) := by
  refine ⟨?_, ?_, fun s text => rfl⟩
  · intro h toks
    rw [limit_tags, h]
  · intro ts h toks
    rw [limit_tags, h]
    refine ⟨List.filter_sublist _, ?_⟩
    intro tok htok
    rw [List.mem_filter]
    simp only [htok, true_and, Bool.not_eq_true', decide_eq_false_iff_not]

/-- Folding length-preserving global feature functions preserves the
number of (token, dictionary) pairs. -/
theorem applyGlobal_foldl_length {τ α : Type} :
    ∀ (gfs : List (GlobalFeature τ α)),
      (∀ g ∈ gfs, ∀ td, (g td).length = td.length) →
      ∀ td : List (τ × FDict α),
        (gfs.foldl (fun td g => applyGlobal g td) td).length = td.length := by
  intro gfs
  induction gfs with
  | nil => intro _ td; rfl
  | cons g rest ih =>
    intro hall td
    rw [List.foldl_cons, ih (fun g2 h2 => hall g2 (List.mem_cons_of_mem _ h2))]
    simp [applyGlobal, List.length_zip, hall g (List.mem_cons_self _ _) td]

/-- transform_single returns one dictionary per token when the global
feature functions preserve the pair count (as in-place mutation does). -/
theorem transform_single_length {τ α : Type} (tf : List (τ → FDict α))
    (gf : List (GlobalFeature τ α))
    (hg : ∀ g ∈ gf, ∀ td, (g td).length = td.length) (toks : List τ) :
    (transform_single tf gf toks).length = toks.length := by
  simp only [transform_single, List.length_map]
  rw [applyGlobal_foldl_length gf hg]
  simp

/-- No dictionary returned by transform_single carries a private
(underscore-prefixed) key: the final pass filters exactly those out. -/
theorem transform_single_no_private {τ α : Type} (tf : List (τ → FDict α))
    (gf : List (GlobalFeature τ α)) (toks : List τ) :
    ∀ d ∈ transform_single tf gf toks, ∀ kv ∈ d, kv.1.startsWith "_" = false := by
  intro d hd kv hkv
  simp only [transform_single, List.mem_map] at hd
  obtain ⟨p, -, rfl⟩ := hd
  have h2 := (List.mem_filter.mp hkv).2
  simpa using h2

/-- Every dictionary of a pruned corpus is a selection from a dictionary
of the unpruned corpus. -/
theorem pruned_mem_subset {α : Type} [DecidableEq α] (X : List (List (FDict α)))
    (low : Option Int) :
    ∀ doc ∈ pruned X low, ∀ fd ∈ doc, ∃ doc0 ∈ X, ∃ fd0 ∈ doc0,
      ∀ kv ∈ fd, kv ∈ fd0 := by
  intro doc hdoc fd hfd
  match low with
  | none =>
    exact ⟨doc, hdoc, fd, hfd, fun kv h => h⟩
  | some lo =>
    rw [pruned] at hdoc
    by_cases hlo : lo ≤ 1
    · rw [if_pos hlo] at hdoc
      exact ⟨doc, hdoc, fd, hfd, fun kv h => h⟩
    · rw [if_neg hlo] at hdoc
      simp only [List.mem_map] at hdoc
      obtain ⟨doc0, hdoc0, rfl⟩ := hdoc
      simp only [List.mem_map] at hfd
      obtain ⟨fd0, hfd0, rfl⟩ := hfd
      exact ⟨doc0, hdoc0, fd0, hfd0, fun kv h => (List.mem_filter.mp h).1⟩

/-- C5: with length-preserving global feature functions (the in-place
mutation contract), transform_single returns exactly one dictionary per
input token, positionally built from the emitted pair list; and no
dictionary returned by transform_single, transform or fit_transform
contains a key beginning with the private underscore prefix, whatever keys
the token-level or global feature functions wrote. -/
theorem claim_C5_alignment_no_private {τ α : Type} [DecidableEq α]
    (tf : List (τ → FDict α)) (gf : List (GlobalFeature τ α))
    (hg : ∀ g ∈ gf, ∀ td, (g td).length = td.length) :
    (∀ toks : List τ, (transform_single tf gf toks).length = toks.length)
    ∧ (∀ toks : List τ, ∀ d ∈ transform_single tf gf toks, ∀ kv ∈ d,
        kv.1.startsWith "_" = false)
    ∧ (∀ lists : List (List τ), ∀ doc ∈ transform tf gf lists, ∀ d ∈ doc, ∀ kv ∈ d,
        kv.1.startsWith "_" = false)
    ∧ (∀ (min_df : Option Int) (lists : List (List τ)),
        ∀ doc ∈ fit_transform tf gf min_df lists, ∀ d ∈ doc, ∀ kv ∈ d,
          kv.1.startsWith "_" = false) := by
  refine ⟨transform_single_length tf gf hg,
    fun toks => transform_single_no_private tf gf toks, ?_, ?_⟩
  · intro lists doc hdoc d hd kv hkv
    simp only [transform, List.mem_map] at hdoc
    obtain ⟨toks, -, rfl⟩ := hdoc
    exact transform_single_no_private tf gf toks d hd kv hkv
  · intro mdf lists doc hdoc d hd kv hkv
    obtain ⟨doc0, hdoc0, fd0, hfd0, hsub⟩ :=
      pruned_mem_subset (lists.map (transform_single tf gf)) mdf doc hdoc d hd
    simp only [List.mem_map] at hdoc0
    obtain ⟨toks, -, rfl⟩ := hdoc0
    exact transform_single_no_private tf gf toks fd0 hfd0 kv (hsub kv hkv)

/-- Witness for C5 at a concrete input: one token feature writing a
private and a public key, no global feature functions, two tokens. -/
theorem claim_C5_witness :
    (∀ toks : List Nat,
      (transform_single [fun _ => [("_p", "v"), ("a", "b")]]
        ([] : List (GlobalFeature Nat String)) toks).length = toks.length)
    ∧ (∀ toks : List Nat, ∀ d ∈ transform_single [fun _ => [("_p", "v"), ("a", "b")]]
        ([] : List (GlobalFeature Nat String)) toks, ∀ kv ∈ d,
          kv.1.startsWith "_" = false)
    ∧ (∀ lists : List (List Nat), ∀ doc ∈ transform [fun _ => [("_p", "v"), ("a", "b")]]
        ([] : List (GlobalFeature Nat String)) lists, ∀ d ∈ doc, ∀ kv ∈ d,
          kv.1.startsWith "_" = false)
    ∧ (∀ (min_df : Option Int) (lists : List (List Nat)),
        ∀ doc ∈ fit_transform [fun _ => [("_p", "v"), ("a", "b")]]
          ([] : List (GlobalFeature Nat String)) min_df lists, ∀ d ∈ doc, ∀ kv ∈ d,
            kv.1.startsWith "_" = false) :=
  claim_C5_alignment_no_private [fun _ => [("_p", "v"), ("a", "b")]]
    ([] : List (GlobalFeature Nat String)) (by simp)

/-- The pruning step in all its regimes: with a threshold it keeps exactly
the pairs whose document frequency reaches it (for thresholds at most one
that is everything, since a present pair occurs in its own document); with
no threshold or one at most 1 the corpus is returned unchanged; with a
threshold above the number of documents every dictionary empties while the
list shape is preserved. -/
theorem pruned_spec {α : Type} [DecidableEq α] (X : List (List (FDict α))) :
    (∀ lo : Int, pruned X (some lo) = X.map (fun doc => doc.map (fun fd =>
        fd.filter (fun kv => decide (lo ≤ (document_frequency X kv : Int))))))
    ∧ (∀ lo : Int, lo ≤ 1 → pruned X (some lo) = X)
    ∧ pruned X none = X
    ∧ (∀ lo : Int, (X.length : Int) < lo →
        ((pruned X (some lo)).map List.length = X.map List.length)
        ∧ ∀ doc ∈ pruned X (some lo), ∀ fd ∈ doc, fd = []) := by
  have hfilter : ∀ lo : Int, lo ≤ 1 →
      X.map (fun doc => doc.map (fun fd =>
        fd.filter (fun kv => decide (lo ≤ (document_frequency X kv : Int))))) = X := by
    intro lo hlo
    calc X.map (fun doc => doc.map (fun fd =>
          fd.filter (fun kv => decide (lo ≤ (document_frequency X kv : Int)))))
        = X.map id := by
          apply List.map_congr_left
          intro doc hdoc
          calc doc.map (fun fd =>
                fd.filter (fun kv => decide (lo ≤ (document_frequency X kv : Int))))
              = doc.map id := by
                apply List.map_congr_left
                intro fd hfd
                simp only [id]
                apply List.filter_eq_self.mpr
                intro kv hkv
                rw [decide_eq_true_eq]
                have hpos : 0 < document_frequency X kv := by
                  rw [document_frequency]
                  apply List.countP_pos_iff.mpr
                  refine ⟨doc, hdoc, ?_⟩
                  rw [decide_eq_true_eq]
                  exact List.mem_flatten.mpr ⟨fd, hfd, hkv⟩
                omega
            _ = doc := List.map_id doc
      _ = X := List.map_id X
  have heq : ∀ lo : Int, pruned X (some lo) = X.map (fun doc => doc.map (fun fd =>
      fd.filter (fun kv => decide (lo ≤ (document_frequency X kv : Int))))) := by
    intro lo
    rw [pruned]
    by_cases hlo : lo ≤ 1
    · rw [if_pos hlo, hfilter lo hlo]
    · rw [if_neg hlo]
  refine ⟨heq, ?_, rfl, ?_⟩
  · intro lo hlo
    rw [heq lo, hfilter lo hlo]
  · intro lo hlo
    constructor
    · rw [heq lo]
      simp [List.map_map, Function.comp, List.length_map]
    · intro doc hdoc fd hfd
      rw [heq lo] at hdoc
      simp only [List.mem_map] at hdoc
      obtain ⟨doc0, -, rfl⟩ := hdoc
      simp only [List.mem_map] at hfd
      obtain ⟨fd0, -, rfl⟩ := hfd
      apply List.filter_eq_nil_iff.mpr
      intro kv _
      have hle : document_frequency X kv ≤ X.length := List.countP_le_length _
      simp only [decide_eq_true_eq]
      omega

/-- C4: fit_transform extracts every document and then keeps in each
dictionary exactly the (name, value) pairs present in at least min_df
documents, a pair counting once per document however many tokens carry it
(document_frequency counts documents); with min_df absent or at most 1 the
result is the unpruned extraction, and with min_df above the number of
documents every dictionary empties while the per-document dictionary
counts are unchanged. -/
theorem claim_C4_document_frequency {τ α : Type} [DecidableEq α]
    (tf : List (τ → FDict α)) (gf : List (GlobalFeature τ α))
    (lists : List (List τ)) :
    (∀ lo : Int, fit_transform tf gf (some lo) lists
        = (lists.map (transform_single tf gf)).map (fun doc => doc.map (fun fd =>
            fd.filter (fun kv => decide (lo ≤ (document_frequency
              (lists.map (transform_single tf gf)) kv : Int))))))
    ∧ (∀ lo : Int, lo ≤ 1 →
        fit_transform tf gf (some lo) lists = lists.map (transform_single tf gf))
    ∧ fit_transform tf gf none lists = lists.map (transform_single tf gf)
    ∧ (∀ lo : Int, ((lists.map (transform_single tf gf)).length : Int) < lo →
        ((fit_transform tf gf (some lo) lists).map List.length
            = (lists.map (transform_single tf gf)).map List.length)
        ∧ ∀ doc ∈ fit_transform tf gf (some lo) lists, ∀ fd ∈ doc, fd = []) :=
  pruned_spec (lists.map (transform_single tf gf))

end Webstruct
